import Mathlib

/-!
# Verification of the `shallows_vm` lexical front end

Shallow embedding of the repository's line map (`line_map.rs`), the two cursor
implementations (iterator-based in `cursor.rs`, index-based in `lexer.rs`) and
the tokenizer (`lexer.rs`).  Line contents are modelled as `List Char`
(Rust `char` = Unicode scalar value = Lean `Char`); Rust's byte-oriented
`String::len` is modelled as the sum of UTF-8 sizes.  Looping code is
embedded with explicit fuel, seeded with a measure that provably suffices,
so every definition is executable.
-/

namespace ShallowsVM

/-- A logical line (`line_map.rs`, `struct Line`): original 0-based index in
the file plus terminator-stripped content. -/
structure Line where
  idx : Nat
  content : List Char
  deriving DecidableEq

/-- A source location (`cursor.rs` / `lexer.rs`, `struct Location`). -/
structure Location where
  line : Nat
  col : Nat
  deriving DecidableEq

/-- A token position (`ast1.rs`, `struct Span`): start line and column only. -/
structure Span where
  line : Nat
  col : Nat
  deriving DecidableEq

/-! ## line_map.rs: eager builder and streaming reader

File I/O is abstracted as the list of per-line outcomes delivered by
`BufReader::lines()`: each element is either the terminator-stripped content
of one raw line or an I/O error. -/

/-- `Lines::from_path` (`line_map.rs` lines 71-92): enumerate all raw lines,
abort on the first I/O error, skip lines whose content is empty, tag kept
lines with their ordinal among all lines read.  `i` is the `enumerate`
counter. -/
def linesFromPathGo (ε : Type) (i : Nat) :
    List (Except ε (List Char)) → Except ε (List Line)
  | [] => Except.ok []
  | Except.error e :: _ => Except.error e
  | Except.ok c :: rest =>
    if c = [] then linesFromPathGo ε (i + 1) rest
    else (linesFromPathGo ε (i + 1) rest).map (fun ls => ⟨i, c⟩ :: ls)

/-- `Lines::from_path`, started at index 0. -/
def linesFromPath (ε : Type) (outs : List (Except ε (List Char))) :
    Except ε (List Line) :=
  linesFromPathGo ε 0 outs

/-- The full output sequence of `LineReader` (`line_map.rs` lines 117-141)
driven to exhaustion: empty lines are skipped but still advance
`current_idx`; I/O errors are yielded in-stream without advancing
`current_idx`. -/
def lineReaderStream (ε : Type) (i : Nat) :
    List (Except ε (List Char)) → List (Except ε Line)
  | [] => []
  | Except.error e :: rest => Except.error e :: lineReaderStream ε i rest
  | Except.ok c :: rest =>
    if c = [] then lineReaderStream ε (i + 1) rest
    else Except.ok ⟨i, c⟩ :: lineReaderStream ε (i + 1) rest

/-- Specification-side description of the kept lines: enumerate all raw
contents, keep the nonempty ones together with their ordinal position. -/
def keptLines (cs : List (List Char)) : List Line :=
  ((cs.enum).filter (fun p => decide (p.2 ≠ []))).map (fun p => ⟨p.1, p.2⟩)

/-! ## The index-based cursor defined inside `lexer.rs` (lines 9-95)

State: the borrowed line list, a line index and a column index.  Its `peek`
compares the column against the *byte* length of the content
(`line.content.len()`) but then reads by *character* index
(`chars().nth(col_idx)`) — faithful modelling keeps both notions. -/

/-- Rust `String::len` of a content: total UTF-8 byte size. -/
def byteLen (cs : List Char) : Nat := (cs.map Char.utf8Size).sum

/-- State of the index-based cursor (`lexer.rs`). -/
structure LSt where
  lines : List Line
  li : Nat
  ci : Nat
  deriving DecidableEq

/-- `Cursor::new` (`lexer.rs`). -/
def initL (lines : List Line) : LSt := ⟨lines, 0, 0⟩

/-- `Cursor::peek` (`lexer.rs` lines 26-42).  Inside the `and_then` the guard
`line_idx < lines.len()` is evaluated as written even though the successful
`get` already implies it. -/
def peekL (s : LSt) : Option Char :=
  (s.lines.get? s.li).bind (fun line =>
    if s.ci < byteLen line.content then line.content.get? s.ci
    else if s.li < s.lines.length then some '\n' else none)

/-- `Cursor::advance` (`lexer.rs` lines 44-57): resolve by `peek`, then a
newline moves to the next line, anything else bumps the column. -/
def advL (s : LSt) : Option Char × LSt :=
  match peekL s with
  | none => (none, s)
  | some c =>
    if c = '\n' then (some '\n', { s with li := s.li + 1, ci := 0 })
    else (some c, { s with ci := s.ci + 1 })

/-- `Cursor::loc` (`lexer.rs` lines 59-78).  The fallback indexes
`lines[lines.len() - 1]` with no emptiness guard; the panic on an empty
collection is modelled as `none`. -/
def locL (s : LSt) : Option Location :=
  match s.lines.get? s.li with
  | some l => some ⟨l.idx, s.ci⟩
  | none =>
    if 0 < s.li then
      (s.lines.get? (s.lines.length - 1)).map (fun l => ⟨l.idx + 1, s.ci⟩)
    else some ⟨0, s.ci⟩

/-- Remaining logical length of a line list: content chars plus one
(virtual) newline per line. -/
def tailLen (ls : List Line) : Nat := (ls.map (fun l => l.content.length + 1)).sum

/-- Fuel measure for the index-based cursor: chars not yet passed in the
active line, its virtual newline, and everything after. -/
def nuL (s : LSt) : Nat :=
  match s.lines.drop s.li with
  | [] => 0
  | l :: rest => (l.content.length - s.ci) + 1 + tailLen rest

/-- `Cursor::eat_while` (`lexer.rs` lines 81-94), with explicit fuel. -/
def eatWhileLF (p : Char → Bool) : Nat → LSt → List Char × LSt
  | 0, s => ([], s)
  | f + 1, s =>
    match peekL s with
    | none => ([], s)
    | some c =>
      if p c then
        let r := eatWhileLF p f (advL s).2
        (c :: r.1, r.2)
      else ([], s)

/-- `Cursor::eat_while` at its canonical (sufficient) fuel. -/
def eatWhileL (p : Char → Bool) (s : LSt) : List Char × LSt :=
  eatWhileLF p (nuL s + 1) s

/-! ## The iterator-based cursor of `cursor.rs` (lines 10-115)

State additionally carries the remaining characters of the active line (the
`Chars` iterator). -/

/-- State of the iterator-based cursor (`cursor.rs`). -/
structure CSt where
  lines : List Line
  li : Nat
  ci : Nat
  chars : List Char
  deriving DecidableEq

/-- `Cursor::new` (`cursor.rs` lines 19-29): the iterator starts on the first
line's content, or empty. -/
def initC (lines : List Line) : CSt :=
  ⟨lines, 0, 0, ((lines.get? 0).map Line.content).getD []⟩

/-- `Cursor::peek` (`cursor.rs` lines 32-48). -/
def peekC (t : CSt) : Option Char :=
  match t.chars.head? with
  | some c => some c
  | none => if t.li < t.lines.length then some '\n' else none

/-- `Cursor::advance` (`cursor.rs` lines 51-79). -/
def advC (t : CSt) : Option Char × CSt :=
  match t.chars with
  | c :: rest => (some c, { t with ci := t.ci + 1, chars := rest })
  | [] =>
    if t.li < t.lines.length then
      (some '\n',
        { t with li := t.li + 1, ci := 0,
                 chars := ((t.lines.get? (t.li + 1)).map Line.content).getD [] })
    else (none, t)

/-- `Cursor::loc` (`cursor.rs` lines 82-99): this variant guards the fallback
with `!lines.is_empty()`, so it is total. -/
def locC (t : CSt) : Location :=
  match t.lines.get? t.li with
  | some l => ⟨l.idx, t.ci⟩
  | none =>
    if 0 < t.li ∧ t.lines ≠ [] then
      ⟨(((t.lines.get? (t.lines.length - 1)).map Line.idx).getD 0) + 1, t.ci⟩
    else ⟨0, t.ci⟩

/-- Fuel measure for the iterator-based cursor. -/
def nuC (t : CSt) : Nat :=
  t.chars.length +
    (if t.li < t.lines.length then 1 + tailLen (t.lines.drop (t.li + 1)) else 0)

/-- `Cursor::eat_while` (`cursor.rs` lines 101-114), with explicit fuel. -/
def eatWhileCF (p : Char → Bool) : Nat → CSt → List Char × CSt
  | 0, t => ([], t)
  | f + 1, t =>
    match peekC t with
    | none => ([], t)
    | some c =>
      if p c then
        let r := eatWhileCF p f (advC t).2
        (c :: r.1, r.2)
      else ([], t)

/-- `Cursor::eat_while` at its canonical fuel. -/
def eatWhileC (p : Char → Bool) (t : CSt) : List Char × CSt :=
  eatWhileCF p (nuC t + 1) t

/-- The character stream obtained by advancing the index-based cursor until
it yields `None`, with explicit fuel. -/
def streamLF : Nat → LSt → List Char
  | 0, _ => []
  | f + 1, s =>
    match peekL s with
    | none => []
    | some c => c :: streamLF f (advL s).2

/-- The full remaining character stream of the index-based cursor. -/
def streamL (s : LSt) : List Char := streamLF (nuL s + 1) s

/-- The character stream of the iterator-based cursor, with explicit fuel. -/
def streamCF : Nat → CSt → List Char
  | 0, _ => []
  | f + 1, t =>
    match peekC t with
    | none => []
    | some c => c :: streamCF f (advC t).2

/-- The full remaining character stream of the iterator-based cursor. -/
def streamC (t : CSt) : List Char := streamCF (nuC t + 1) t

/-- The stream §4.2 promises: every stored line's characters followed by
exactly one synthesized newline. -/
def joinStream (lines : List Line) : List Char :=
  (lines.map (fun l => l.content ++ ['\n'])).flatten

/-! ## Tokens (`lexer.rs` lines 100-172) -/

/-- `TokenKind` (`lexer.rs` lines 106-154).  Literal payloads carry the raw
source text; `String` carries the decoded content. -/
inductive TokenKind where
  | Ident (s : String)
  | Int (s : String)
  | Float (s : String)
  | String (s : String)
  | Let | If | Elif | Else | Yield | Return | True | False
  | Eq | EqEq | Bang | BangEq | Plus | Minus | Star | Slash
  | Lt | Le | Gt | Ge | And | Or
  | LParen | RParen | LBrace | RBrace | Comma | Colon | Semi
  | Eof
  | Error (msg : String)
  deriving DecidableEq

/-- `Token` (`lexer.rs` lines 101-104): kind plus start position. -/
structure Token where
  kind : TokenKind
  span : Span
  deriving DecidableEq

/-! ## Character predicates -/

/-- Rust `char::is_whitespace`: the Unicode `White_Space` property. -/
def isRustWhitespace (c : Char) : Bool :=
  let n := c.toNat
  decide ((9 ≤ n ∧ n ≤ 13) ∨ n = 32 ∨ n = 0x85 ∨ n = 0xA0 ∨ n = 0x1680 ∨
    (0x2000 ≤ n ∧ n ≤ 0x200A) ∨ n = 0x2028 ∨ n = 0x2029 ∨ n = 0x202F ∨
    n = 0x205F ∨ n = 0x3000)

/-- `is_ident_start` (`lexer.rs` lines 410-412): ASCII letter or underscore. -/
def isIdentStart (c : Char) : Bool := c.isAlpha || c == '_'

/-- `is_ident_char` (`lexer.rs` lines 414-416): ASCII alphanumeric or
underscore. -/
def isIdentChar (c : Char) : Bool := c.isAlphanum || c == '_'

/-- Predicate of the numeric scan's digit runs: `c.is_ascii_digit() || c == '_'`. -/
def digitOrUnderscore (c : Char) : Bool := c.isDigit || c == '_'

/-! ## The Lexer (`lexer.rs` lines 174-406)

The Lexer owns one index-based cursor; its state is exactly an `LSt`. -/

/-- The span recorded for a token: `Cursor::loc`, never panicking in the
states the Lexer actually reaches (the default is irrelevant there). -/
def spanAt (s : LSt) : Span :=
  match locL s with
  | some l => ⟨l.line, l.col⟩
  | none => ⟨0, 0⟩

/-- `Lexer::skip_whitespace` (`lexer.rs` lines 315-317). -/
def skipWhitespace (s : LSt) : LSt := (eatWhileL isRustWhitespace s).2

/-- `Lexer::match_char` (`lexer.rs` lines 320-327). -/
def matchChar (s : LSt) (expected : Char) : Bool × LSt :=
  if peekL s = some expected then (true, (advL s).2) else (false, s)

/-- `match raw.as_str()` of the identifier branch (`lexer.rs` lines 207-217). -/
def keywordOrIdent (raw : String) : TokenKind :=
  match raw with
  | "let" => .Let
  | "if" => .If
  | "elif" => .Elif
  | "else" => .Else
  | "yield" => .Yield
  | "return" => .Return
  | "true" => .True
  | "false" => .False
  | _ => .Ident raw

/-- The single-character/operator match of `next_token` (`lexer.rs` lines
235-295), entered after the cursor has already advanced past `c`; the `'/'`
case is handled by the caller because its comment branch re-enters
`next_token`. -/
def symbolToken (c : Char) (s1 : LSt) : TokenKind × LSt :=
  match c with
  | '(' => (.LParen, s1)
  | ')' => (.RParen, s1)
  | '{' => (.LBrace, s1)
  | '}' => (.RBrace, s1)
  | ',' => (.Comma, s1)
  | ';' => (.Semi, s1)
  | ':' => (.Colon, s1)
  | '+' => (.Plus, s1)
  | '-' => (.Minus, s1)
  | '*' => (.Star, s1)
  | '=' => (if (matchChar s1 '=').1 then .EqEq else .Eq, (matchChar s1 '=').2)
  | '!' => (if (matchChar s1 '=').1 then .BangEq else .Bang, (matchChar s1 '=').2)
  | '<' => (if (matchChar s1 '=').1 then .Le else .Lt, (matchChar s1 '=').2)
  | '>' => (if (matchChar s1 '=').1 then .Ge else .Gt, (matchChar s1 '=').2)
  | '&' => (if (matchChar s1 '&').1 then .And
            else .Error "Expected '&&', found '&'", (matchChar s1 '&').2)
  | _ => (.Error ("Unexpected character: '" ++ c.toString ++ "'"), s1)

/-- Fractional-part stage of `Lexer::scan_number` (`lexer.rs` lines 359-368):
if a `.` follows, mark floating, consume it and a digit/underscore run. -/
def scanNumFrac (acc : List Char) (isF : Bool) (s : LSt) :
    List Char × Bool × LSt :=
  if peekL s = some '.' then
    let r := eatWhileL digitOrUnderscore (advL s).2
    (acc ++ '.' :: r.1, true, r.2)
  else (acc, isF, s)

/-- Exponent stage of `Lexer::scan_number` (`lexer.rs` lines 370-382):
on `e`/`E`, mark floating, consume it, an optional sign, and a digit run. -/
def scanNumExp (acc : List Char) (isF : Bool) (s : LSt) :
    List Char × Bool × LSt :=
  match peekL s with
  | some c =>
    if c = 'e' ∨ c = 'E' then
      let sA := (advL s).2
      let sgn : List Char × LSt :=
        match peekL sA with
        | some c2 => if c2 = '+' ∨ c2 = '-' then ([c2], (advL sA).2) else ([], sA)
        | none => ([], sA)
      let r := eatWhileL Char.isDigit sgn.2
      (acc ++ c :: (sgn.1 ++ r.1), true, r.2)
    else (acc, isF, s)
  | none => (acc, isF, s)

/-- Suffix stage of `Lexer::scan_number` (`lexer.rs` lines 384-398): `f`
forces floating; `u`/`i` join the raw text without changing the
classification. -/
def scanNumSuffix (acc : List Char) (isF : Bool) (s : LSt) :
    List Char × Bool × LSt :=
  match peekL s with
  | some c =>
    if c = 'f' then (acc ++ [c], true, (advL s).2)
    else if c = 'u' ∨ c = 'i' then (acc ++ [c], isF, (advL s).2)
    else (acc, isF, s)
  | none => (acc, isF, s)

/-- `Lexer::scan_number` (`lexer.rs` lines 352-405). -/
def scanNumber (start : Span) (s : LSt) : Token × LSt :=
  let r1 := eatWhileL digitOrUnderscore s
  let a := scanNumFrac r1.1 false r1.2
  let b := scanNumExp a.1 a.2.1 a.2.2
  let d := scanNumSuffix b.1 b.2.1 b.2.2
  if d.2.1 then (⟨.Float d.1.asString, start⟩, d.2.2)
  else (⟨.Int d.1.asString, start⟩, d.2.2)

/-- The collection loop of `Lexer::scan_string` (`lexer.rs` lines 332-341):
push every character up to (excluding) the next `"` or end of input. -/
def scanStrBody : Nat → LSt → List Char × LSt
  | 0, s => ([], s)
  | f + 1, s =>
    match peekL s with
    | none => ([], s)
    | some c =>
      if c = '"' then ([], s)
      else
        let r := scanStrBody f (advL s).2
        (c :: r.1, r.2)

/-- `Lexer::scan_string` (`lexer.rs` lines 329-350). -/
def scanString (start : Span) (s : LSt) : Token × LSt :=
  let s1 := (advL s).2
  let r := scanStrBody (nuL s1 + 1) s1
  if peekL r.2 = some '"' then (⟨.String r.1.asString, start⟩, (advL r.2).2)
  else (⟨.Error "Unterminated string", start⟩, r.2)

/-- `Lexer::next_token` (`lexer.rs` lines 184-298), with explicit fuel for
the comment branch's re-entry. -/
def nextTokF : Nat → LSt → Token × LSt
  | 0, s => (⟨.Eof, ⟨0, 0⟩⟩, s)
  | f + 1, s =>
    let s0 := skipWhitespace s
    let start := spanAt s0
    match peekL s0 with
    | none => (⟨.Eof, start⟩, s0)
    | some c =>
      if isIdentStart c then
        let r := eatWhileL isIdentChar s0
        (⟨keywordOrIdent r.1.asString, start⟩, r.2)
      else if c.isDigit then scanNumber start s0
      else if c = '"' then scanString start s0
      else
        let s1 := (advL s0).2
        if c = '/' then
          if peekL s1 = some '/' then
            nextTokF f (eatWhileL (fun x => x != '\n') s1).2
          else (⟨.Slash, start⟩, s1)
        else
          let r := symbolToken c s1
          (⟨r.1, start⟩, r.2)

/-- `Lexer::next_token` at its canonical (sufficient) fuel. -/
def nextToken (s : LSt) : Token × LSt := nextTokF (nuL s + 1) s

/-- Lexer state after `n` calls to `next_token`. -/
def stAt : LSt → Nat → LSt
  | s, 0 => s
  | s, n + 1 => stAt (nextToken s).2 n

/-- The token returned by the `(n+1)`-st call to `next_token` (0-based). -/
def tokAt (s : LSt) (n : Nat) : Token := (nextToken (stAt s n)).1

/-- One observable operation on a cursor (C9): the two implementations are
compared on arbitrary interleavings of these. -/
inductive COp where
  | peek
  | advance
  | loc
  | eatWhile (p : Char → Bool)

/-- One observable result. -/
inductive COut where
  | ch (c : Option Char)
  | txt (t : List Char)
  | pos (l : Option Location)
  deriving DecidableEq

/-- Run a call sequence on the index-based cursor (`lexer.rs`), collecting
every return value; the partial `loc` reports `none` on the panicking
state. -/
def runL : List COp → LSt → List COut
  | [], _ => []
  | COp.peek :: rest, s => COut.ch (peekL s) :: runL rest s
  | COp.advance :: rest, s => COut.ch (advL s).1 :: runL rest (advL s).2
  | COp.loc :: rest, s => COut.pos (locL s) :: runL rest s
  | COp.eatWhile p :: rest, s =>
    COut.txt (eatWhileL p s).1 :: runL rest (eatWhileL p s).2

/-- Run a call sequence on the iterator-based cursor (`cursor.rs`). -/
def runC : List COp → CSt → List COut
  | [], _ => []
  | COp.peek :: rest, t => COut.ch (peekC t) :: runC rest t
  | COp.advance :: rest, t => COut.ch (advC t).1 :: runC rest (advC t).2
  | COp.loc :: rest, t => COut.pos (some (locC t)) :: runC rest t
  | COp.eatWhile p :: rest, t =>
    COut.txt (eatWhileC p t).1 :: runC rest (eatWhileC p t).2

/-- Contents whose UTF-8 byte count equals their character count (i.e.
ASCII-only) and which contain no line feed: the regime in which the two
cursor implementations coincide (contents produced by `Lines::from_path`
always satisfy the line-feed half, since terminators are stripped). -/
def goodLines (lines : List Line) : Prop :=
  ∀ l ∈ lines, byteLen l.content = l.content.length ∧ ∀ c ∈ l.content, c ≠ '\n'

/-- States of the index-based cursor reachable from `Cursor::new` by
`advance` steps (`peek` and `loc` do not mutate, and `eat_while` only
iterates `advance`). -/
inductive ReachL : LSt → Prop where
  | init (lines : List Line) : ReachL (initL lines)
  | step {s : LSt} : ReachL s → ReachL (advL s).2

/-- Simulation relation between the two cursor implementations: same lines
and indices, the iterator holding exactly the not-yet-consumed characters
of the active line, over a well-behaved collection. -/
def RelLC (s : LSt) (t : CSt) : Prop :=
  s.lines = t.lines ∧ s.li = t.li ∧ s.ci = t.ci ∧ goodLines s.lines ∧
  (0 < s.li → s.lines ≠ []) ∧
  t.chars = (match s.lines.get? s.li with
             | some l => l.content.drop s.ci
             | none => [])

/-! ## Basic lemmas on the index-based cursor -/

theorem drop_eq_cons_of_get? {L : List Line} {j : Nat} {l : Line}
    (h : L.get? j = some l) : L.drop j = l :: L.drop (j + 1) := by
  have hj : j < L.length := by
    by_contra hle
    rw [List.get?_eq_none.2 (by omega)] at h
    exact Option.noConfusion h
  rw [List.drop_eq_getElem_cons hj]
  have : L[j] = l := by
    have := List.get?_eq_getElem? L j
    rw [List.getElem?_eq_getElem hj] at this
    rw [h] at this
    exact (Option.some.inj this).symm
  rw [this]

theorem nuL_ci_zero (L : List Line) (j : Nat) :
    nuL ⟨L, j, 0⟩ = tailLen (L.drop j) := by
  unfold nuL
  cases h : L.drop j with
  | nil => simp [tailLen, h]
  | cons l rest => simp [tailLen, h]

theorem advL_of_peek {s : LSt} {c : Char} (h : peekL s = some c) :
    advL s = if c = '\n' then (some '\n', ⟨s.lines, s.li + 1, 0⟩)
             else (some c, ⟨s.lines, s.li, s.ci + 1⟩) := by
  unfold advL
  rw [h]

/-- If `peek` succeeds on content, the column is a valid character index of
the active line. -/
theorem peekL_content {s : LSt} {l : Line} {c : Char}
    (hg : s.lines.get? s.li = some l) (hci : s.ci < byteLen l.content)
    (h : peekL s = some c) : l.content.get? s.ci = some c := by
  unfold peekL at h
  rw [hg] at h
  simp only [Option.some_bind] at h
  rw [if_pos hci] at h
  exact h

/-- Advancing over any character strictly shrinks the measure. -/
theorem nuL_advL_lt {s : LSt} {c : Char} (h : peekL s = some c) :
    nuL (advL s).2 < nuL s := by
  have hg0 : s.lines.get? s.li ≠ none := by
    intro hn
    unfold peekL at h
    rw [hn] at h
    exact Option.noConfusion h
  obtain ⟨l, hg⟩ := Option.ne_none_iff_exists'.1 hg0
  have hdrop := drop_eq_cons_of_get? hg
  have hnus : nuL s = (l.content.length - s.ci) + 1 + tailLen (s.lines.drop (s.li + 1)) := by
    unfold nuL
    rw [hdrop]
  have hnext : nuL ⟨s.lines, s.li + 1, 0⟩ = tailLen (s.lines.drop (s.li + 1)) :=
    nuL_ci_zero _ _
  rw [advL_of_peek h]
  by_cases hnl : c = '\n'
  · rw [if_pos hnl]
    show nuL (⟨s.lines, s.li + 1, 0⟩ : LSt) < nuL s
    rw [hnext, hnus]
    omega
  · rw [if_neg hnl]
    have hci : s.ci < byteLen l.content := by
      by_contra hge
      unfold peekL at h
      rw [hg] at h
      simp only [Option.some_bind] at h
      rw [if_neg hge] at h
      by_cases hlt : s.li < s.lines.length
      · rw [if_pos hlt] at h
        exact hnl (Option.some.inj h).symm
      · rw [if_neg hlt] at h
        exact Option.noConfusion h
    have hci2 : s.ci < l.content.length := by
      have := peekL_content hg hci h
      by_contra hle
      rw [List.get?_eq_none.2 (by omega)] at this
      exact Option.noConfusion this
    have hnew : nuL ⟨s.lines, s.li, s.ci + 1⟩ =
        (l.content.length - (s.ci + 1)) + 1 + tailLen (s.lines.drop (s.li + 1)) := by
      unfold nuL
      rw [hdrop]
    show nuL (⟨s.lines, s.li, s.ci + 1⟩ : LSt) < nuL s
    rw [hnew, hnus]
    omega

theorem nuL_pos_of_peek {s : LSt} {c : Char} (h : peekL s = some c) :
    1 ≤ nuL s :=
  Nat.one_le_iff_ne_zero.2 (fun h0 => by
    have := nuL_advL_lt h
    omega)

theorem advL_none {s : LSt} (h : peekL s = none) : advL s = (none, s) := by
  unfold advL
  rw [h]

/-- `eat_while` computes the same answer at every sufficient fuel. -/
theorem eatWhileLF_mono (p : Char → Bool) :
    ∀ (f : Nat) {s : LSt} (g : Nat), nuL s < f → nuL s < g →
      eatWhileLF p f s = eatWhileLF p g s := by
  intro f
  induction f with
  | zero => intro s g hf _; omega
  | succ f ih =>
    intro s g hf hg
    cases g with
    | zero => omega
    | succ g =>
      show eatWhileLF p (f + 1) s = eatWhileLF p (g + 1) s
      simp only [eatWhileLF]
      cases hp : peekL s with
      | none => rfl
      | some c =>
        by_cases hc : p c
        · simp only [hc, if_true]
          have hlt := nuL_advL_lt hp
          rw [ih (g := g) (by omega) (by omega)]
        · simp only [hc, Bool.false_eq_true, if_false]

/-- One-step unfolding of `eat_while` at canonical fuel. -/
theorem eatWhileL_eq (p : Char → Bool) (s : LSt) :
    eatWhileL p s =
      match peekL s with
      | none => ([], s)
      | some c =>
        if p c then
          let r := eatWhileL p (advL s).2
          (c :: r.1, r.2)
        else ([], s) := by
  unfold eatWhileL
  conv =>
    lhs
    rw [show nuL s + 1 = nuL s + 1 from rfl]
  rw [show eatWhileLF p (nuL s + 1) s =
      match peekL s with
      | none => ([], s)
      | some c =>
        if p c then
          let r := eatWhileLF p (nuL s) (advL s).2
          (c :: r.1, r.2)
        else ([], s) from rfl]
  cases hp : peekL s with
  | none => rfl
  | some c =>
    by_cases hc : p c
    · simp only [hc, if_true]
      have hlt := nuL_advL_lt hp
      rw [eatWhileLF_mono p (nuL s) (nuL (advL s).2 + 1) (by omega) (by omega)]
    · simp only [hc, Bool.false_eq_true, if_false]

theorem eatWhileL_none {p : Char → Bool} {s : LSt} (h : peekL s = none) :
    eatWhileL p s = ([], s) := by
  rw [eatWhileL_eq]
  rw [h]

theorem eatWhileL_neg {p : Char → Bool} {s : LSt} {c : Char}
    (h : peekL s = some c) (hc : p c = false) : eatWhileL p s = ([], s) := by
  rw [eatWhileL_eq, h]
  simp only [hc, Bool.false_eq_true, if_false]

theorem eatWhileL_pos {p : Char → Bool} {s : LSt} {c : Char}
    (h : peekL s = some c) (hc : p c = true) :
    eatWhileL p s = (c :: (eatWhileL p (advL s).2).1, (eatWhileL p (advL s).2).2) := by
  rw [eatWhileL_eq, h]
  simp only [hc, if_true]

/-- `eat_while` never grows the measure. -/
theorem nuL_eatWhileLF_le (p : Char → Bool) :
    ∀ (f : Nat) (s : LSt), nuL (eatWhileLF p f s).2 ≤ nuL s := by
  intro f
  induction f with
  | zero => intro s; exact Nat.le_refl _
  | succ f ih =>
    intro s
    show nuL (eatWhileLF p (f + 1) s).2 ≤ nuL s
    simp only [eatWhileLF]
    cases hp : peekL s with
    | none => exact Nat.le_refl _
    | some c =>
      by_cases hc : p c
      · simp only [hc, if_true]
        have h1 := ih (advL s).2
        have h2 := nuL_advL_lt hp
        omega
      · simp only [hc, Bool.false_eq_true, if_false]
        exact Nat.le_refl _

theorem nuL_eatWhileL_le (p : Char → Bool) (s : LSt) :
    nuL (eatWhileL p s).2 ≤ nuL s :=
  nuL_eatWhileLF_le p _ s

/-- `eat_while` strictly shrinks the measure when the first character
matches. -/
theorem nuL_eatWhileL_lt {p : Char → Bool} {s : LSt} {c : Char}
    (h : peekL s = some c) (hc : p c = true) :
    nuL (eatWhileL p s).2 < nuL s := by
  rw [eatWhileL_pos h hc]
  show nuL (eatWhileL p (advL s).2).2 < nuL s
  have h1 := nuL_eatWhileL_le p (advL s).2
  have h2 := nuL_advL_lt h
  omega

/-! ## The remaining character stream of the index-based cursor -/

theorem streamLF_mono :
    ∀ (f : Nat) {s : LSt} (g : Nat), nuL s < f → nuL s < g →
      streamLF f s = streamLF g s := by
  intro f
  induction f with
  | zero => intro s g hf _; omega
  | succ f ih =>
    intro s g hf hg
    cases g with
    | zero => omega
    | succ g =>
      show streamLF (f + 1) s = streamLF (g + 1) s
      simp only [streamLF]
      cases hp : peekL s with
      | none => rfl
      | some c =>
        have hlt := nuL_advL_lt hp
        rw [ih (g := g) (by omega) (by omega)]

theorem streamL_none {s : LSt} (h : peekL s = none) : streamL s = [] := by
  unfold streamL
  rw [show streamLF (nuL s + 1) s =
      match peekL s with
      | none => []
      | some c => c :: streamLF (nuL s) (advL s).2 from rfl]
  rw [h]

theorem streamL_cons {s : LSt} {c : Char} (h : peekL s = some c) :
    streamL s = c :: streamL (advL s).2 := by
  unfold streamL
  rw [show streamLF (nuL s + 1) s =
      match peekL s with
      | none => []
      | some c => c :: streamLF (nuL s) (advL s).2 from rfl]
  rw [h]
  have hlt := nuL_advL_lt h
  rw [streamLF_mono (nuL s) (nuL (advL s).2 + 1) (by omega) (by omega)]

/-- `peek` is the head of the remaining stream. -/
theorem peekL_eq_head (s : LSt) : peekL s = (streamL s).head? := by
  cases hp : peekL s with
  | none => rw [streamL_none hp]; rfl
  | some c => rw [streamL_cons hp]; rfl

/-! ## `next_token`: canonical-fuel unfolding -/

theorem nextTokF_mono :
    ∀ (f : Nat) {s : LSt} (g : Nat), nuL s < f → nuL s < g →
      nextTokF f s = nextTokF g s := by
  intro f
  induction f with
  | zero => intro s g hf _; omega
  | succ f ih =>
    intro s g hf hg
    cases g with
    | zero => omega
    | succ g =>
      show nextTokF (f + 1) s = nextTokF (g + 1) s
      simp only [nextTokF]
      cases hp : peekL (skipWhitespace s) with
      | none => rfl
      | some c =>
        simp only []
        by_cases h1 : isIdentStart c = true
        · simp only [h1, if_true]
        · simp only [h1, Bool.false_eq_true, if_false]
          by_cases h2 : c.isDigit = true
          · simp only [h2, if_true]
          · simp only [h2, Bool.false_eq_true, if_false]
            by_cases h3 : c = '"'
            · simp only [h3, if_true]
            · simp only [h3, if_false]
              by_cases h4 : c = '/'
              · simp only [h4, if_true]
                by_cases h5 : peekL (advL (skipWhitespace s)).2 = some '/'
                · simp only [h5, if_true]
                  have hs0 : nuL (skipWhitespace s) ≤ nuL s :=
                    nuL_eatWhileL_le isRustWhitespace s
                  have hs1 : nuL (advL (skipWhitespace s)).2 < nuL (skipWhitespace s) := by
                    apply nuL_advL_lt
                    rw [hp, h4]
                  have hs2 : nuL (eatWhileL (fun x => x != '\n')
                      (advL (skipWhitespace s)).2).2 < nuL (advL (skipWhitespace s)).2 :=
                    nuL_eatWhileL_lt h5 rfl
                  exact ih (g := g) (by omega) (by omega)
                · simp only [h5, if_false]
              · simp only [h4, if_false]

/-- One-step unfolding of `next_token` at canonical fuel: the source's
recursive structure, with the comment branch re-entering `next_token`. -/
theorem nextToken_eq (s : LSt) :
    nextToken s =
      (let s0 := skipWhitespace s
       let start := spanAt s0
       match peekL s0 with
       | none => (⟨.Eof, start⟩, s0)
       | some c =>
         if isIdentStart c then
           let r := eatWhileL isIdentChar s0
           (⟨keywordOrIdent r.1.asString, start⟩, r.2)
         else if c.isDigit then scanNumber start s0
         else if c = '"' then scanString start s0
         else
           let s1 := (advL s0).2
           if c = '/' then
             if peekL s1 = some '/' then
               nextToken (eatWhileL (fun x => x != '\n') s1).2
             else (⟨.Slash, start⟩, s1)
           else
             let r := symbolToken c s1
             (⟨r.1, start⟩, r.2)) := by
  unfold nextToken
  conv =>
    lhs
    rw [show nuL s + 1 = nuL s + 1 from rfl]
  simp only [nextTokF]
  cases hp : peekL (skipWhitespace s) with
  | none => rfl
  | some c =>
    simp only []
    by_cases h1 : isIdentStart c = true
    · simp only [h1, if_true]
    · simp only [h1, Bool.false_eq_true, if_false]
      by_cases h2 : c.isDigit = true
      · simp only [h2, if_true]
      · simp only [h2, Bool.false_eq_true, if_false]
        by_cases h3 : c = '"'
        · simp only [h3, if_true]
        · simp only [h3, if_false]
          by_cases h4 : c = '/'
          · simp only [h4, if_true]
            by_cases h5 : peekL (advL (skipWhitespace s)).2 = some '/'
            · simp only [h5, if_true]
              have hs0 : nuL (skipWhitespace s) ≤ nuL s :=
                nuL_eatWhileL_le isRustWhitespace s
              have hs1 : nuL (advL (skipWhitespace s)).2 < nuL (skipWhitespace s) := by
                apply nuL_advL_lt
                rw [hp, h4]
              have hs2 : nuL (eatWhileL (fun x => x != '\n')
                  (advL (skipWhitespace s)).2).2 < nuL (advL (skipWhitespace s)).2 :=
                nuL_eatWhileL_lt h5 rfl
              exact nextTokF_mono (nuL s)
                (nuL (eatWhileL (fun x => x != '\n') (advL (skipWhitespace s)).2).2 + 1)
                (by omega) (by omega)
            · simp only [h5, if_false]
          · simp only [h4, if_false]

/-! ## Measure bounds for the individual scanners -/

theorem nuL_advL_le (s : LSt) : nuL (advL s).2 ≤ nuL s := by
  cases hp : peekL s with
  | none => rw [advL_none hp]
  | some c => exact Nat.le_of_lt (nuL_advL_lt hp)

theorem identStart_identChar {c : Char} (h : isIdentStart c = true) :
    isIdentChar c = true := by
  unfold isIdentStart at h
  unfold isIdentChar Char.isAlphanum
  rcases Bool.or_eq_true_iff.1 h with h1 | h1 <;> simp [h1]

theorem keywordOrIdent_ne_eof (raw : String) :
    keywordOrIdent raw ≠ TokenKind.Eof := by
  unfold keywordOrIdent
  split <;> intro h <;> exact TokenKind.noConfusion h

theorem nuL_matchChar_le (s : LSt) (e : Char) : nuL (matchChar s e).2 ≤ nuL s := by
  unfold matchChar
  split
  · exact nuL_advL_le s
  · exact Nat.le_refl _

theorem symbolToken_ne_eof (c : Char) (s1 : LSt) :
    (symbolToken c s1).1 ≠ TokenKind.Eof := by
  unfold symbolToken
  split <;> (try split) <;> intro h <;> exact TokenKind.noConfusion h


theorem nuL_symbolToken_le (c : Char) (s1 : LSt) :
    nuL (symbolToken c s1).2 ≤ nuL s1 := by
  unfold symbolToken
  split <;> (try exact Nat.le_refl _) <;>
    exact nuL_matchChar_le s1 _

theorem nuL_scanNumFrac_le (a : List Char) (b : Bool) (s : LSt) :
    nuL (scanNumFrac a b s).2.2 ≤ nuL s := by
  unfold scanNumFrac
  split
  · exact Nat.le_trans (nuL_eatWhileL_le _ _) (nuL_advL_le s)
  · exact Nat.le_refl _

theorem nuL_scanNumExp_le (a : List Char) (b : Bool) (s : LSt) :
    nuL (scanNumExp a b s).2.2 ≤ nuL s := by
  unfold scanNumExp
  cases hp : peekL s with
  | none => exact Nat.le_refl _
  | some c =>
    simp only []
    split
    · cases hp2 : peekL (advL s).2 with
      | none =>
        simp only []
        exact Nat.le_trans (nuL_eatWhileL_le _ _) (nuL_advL_le s)
      | some c2 =>
        simp only []
        split
        · exact Nat.le_trans (nuL_eatWhileL_le _ _)
            (Nat.le_trans (nuL_advL_le _) (nuL_advL_le s))
        · exact Nat.le_trans (nuL_eatWhileL_le _ _) (nuL_advL_le s)
    · exact Nat.le_refl _

theorem nuL_scanNumSuffix_le (a : List Char) (b : Bool) (s : LSt) :
    nuL (scanNumSuffix a b s).2.2 ≤ nuL s := by
  unfold scanNumSuffix
  cases hp : peekL s with
  | none => exact Nat.le_refl _
  | some c =>
    simp only []
    split
    · exact nuL_advL_le s
    · split
      · exact nuL_advL_le s
      · exact Nat.le_refl _

theorem scanNumber_ne_eof (st : Span) (s : LSt) :
    (scanNumber st s).1.kind ≠ TokenKind.Eof := by
  unfold scanNumber
  simp only []
  split <;> intro h <;> exact TokenKind.noConfusion h

theorem nuL_scanNumber_lt {s : LSt} {c : Char} (st : Span)
    (hp : peekL s = some c) (hd : c.isDigit = true) :
    nuL (scanNumber st s).2 < nuL s := by
  have h1 : nuL (eatWhileL digitOrUnderscore s).2 < nuL s := by
    apply nuL_eatWhileL_lt hp
    unfold digitOrUnderscore
    rw [hd]
    rfl
  unfold scanNumber
  simp only []
  split
  · refine Nat.lt_of_le_of_lt ?_ h1
    exact Nat.le_trans (nuL_scanNumSuffix_le _ _ _)
      (Nat.le_trans (nuL_scanNumExp_le _ _ _) (nuL_scanNumFrac_le _ _ _))
  · refine Nat.lt_of_le_of_lt ?_ h1
    exact Nat.le_trans (nuL_scanNumSuffix_le _ _ _)
      (Nat.le_trans (nuL_scanNumExp_le _ _ _) (nuL_scanNumFrac_le _ _ _))

theorem nuL_scanStrBody_le :
    ∀ (f : Nat) (s : LSt), nuL (scanStrBody f s).2 ≤ nuL s := by
  intro f
  induction f with
  | zero => intro s; exact Nat.le_refl _
  | succ f ih =>
    intro s
    show nuL (scanStrBody (f + 1) s).2 ≤ nuL s
    simp only [scanStrBody]
    cases hp : peekL s with
    | none => exact Nat.le_refl _
    | some c =>
      simp only []
      split
      · exact Nat.le_refl _
      · exact Nat.le_trans (ih (advL s).2) (nuL_advL_le s)

theorem scanString_ne_eof (st : Span) (s : LSt) :
    (scanString st s).1.kind ≠ TokenKind.Eof := by
  unfold scanString
  simp only []
  split <;> intro h <;> exact TokenKind.noConfusion h

theorem nuL_scanString_lt {s : LSt} {c : Char} (st : Span)
    (hp : peekL s = some c) : nuL (scanString st s).2 < nuL s := by
  have h1 : nuL (advL s).2 < nuL s := nuL_advL_lt hp
  unfold scanString
  simp only []
  split
  · refine Nat.lt_of_le_of_lt ?_ h1
    exact Nat.le_trans (nuL_advL_le _) (nuL_scanStrBody_le _ _)
  · refine Nat.lt_of_le_of_lt ?_ h1
    exact nuL_scanStrBody_le _ _

/-! ## `next_token` on exhausted input, and measure behaviour -/

theorem skipWhitespace_of_none {s : LSt} (h : peekL s = none) :
    skipWhitespace s = s := by
  unfold skipWhitespace
  rw [eatWhileL_none h]

theorem skipWhitespace_of_nonws {s : LSt} {c : Char} (h : peekL s = some c)
    (hc : isRustWhitespace c = false) : skipWhitespace s = s := by
  unfold skipWhitespace
  rw [eatWhileL_neg h hc]

theorem nuL_skipWhitespace_le (s : LSt) : nuL (skipWhitespace s) ≤ nuL s :=
  nuL_eatWhileL_le isRustWhitespace s

/-- A `next_token` call on exhausted input returns end-of-input and leaves
the state untouched. -/
theorem nextToken_of_none {s : LSt} (h : peekL s = none) :
    nextToken s = (⟨TokenKind.Eof, spanAt s⟩, s) := by
  rw [nextToken_eq]
  simp only [skipWhitespace_of_none h, h]

theorem tailLen_eq_zero {ls : List Line} (h : tailLen ls = 0) : ls = [] := by
  cases ls with
  | nil => rfl
  | cons l rest =>
    simp [tailLen] at h

theorem peekL_none_of_nuL_zero {s : LSt} (h : nuL s = 0) : peekL s = none := by
  unfold nuL at h
  cases hd : s.lines.drop s.li with
  | cons l rest =>
    rw [hd] at h
    simp only [] at h
    omega
  | nil =>
    have hlen : s.lines.length ≤ s.li := List.drop_eq_nil_iff.1 hd
    unfold peekL
    rw [List.get?_eq_none.2 hlen]
    rfl

theorem nuL_skipWhitespace_lt {s : LSt} {c : Char} (h : peekL s = some c)
    (hc : isRustWhitespace c = true) : nuL (skipWhitespace s) < nuL s :=
  nuL_eatWhileL_lt h hc

/-- The crux of termination: `next_token` never grows the remaining input;
it strictly shrinks it unless the input was already exhausted; and a
returned `Eof` means the final state is exhausted. -/
theorem nextToken_nu : ∀ (n : Nat) (s : LSt), nuL s ≤ n →
    nuL (nextToken s).2 ≤ nuL s ∧
    (peekL s ≠ none → nuL (nextToken s).2 < nuL s) ∧
    ((nextToken s).1.kind = TokenKind.Eof → peekL (nextToken s).2 = none) := by
  intro n
  induction n with
  | zero =>
    intro s h0
    have hp : peekL s = none := peekL_none_of_nuL_zero (by omega)
    rw [nextToken_of_none hp]
    exact ⟨Nat.le_refl _, fun hne => absurd hp hne, fun _ => hp⟩
  | succ n ih =>
    intro s hle
    have hsw := nuL_skipWhitespace_le s
    rw [nextToken_eq]
    simp only []
    cases hp : peekL (skipWhitespace s) with
    | none =>
      refine ⟨hsw, ?_, fun _ => hp⟩
      intro hne
      obtain ⟨c, hc⟩ := Option.ne_none_iff_exists'.1 hne
      by_cases hw : isRustWhitespace c = true
      · exact nuL_skipWhitespace_lt hc hw
      · rw [skipWhitespace_of_nonws hc (Bool.not_eq_true _ ▸ hw)] at hp
        rw [hc] at hp
        exact Option.noConfusion hp
    | some c =>
      simp only []
      by_cases h1 : isIdentStart c = true
      · simp only [h1, if_true]
        have hlt : nuL (eatWhileL isIdentChar (skipWhitespace s)).2 < nuL s :=
          Nat.lt_of_lt_of_le (nuL_eatWhileL_lt hp (identStart_identChar h1)) hsw
        exact ⟨Nat.le_of_lt hlt, fun _ => hlt,
          fun h => absurd h (keywordOrIdent_ne_eof _)⟩
      · simp only [h1, Bool.false_eq_true, if_false]
        by_cases h2 : c.isDigit = true
        · simp only [h2, if_true]
          have hlt : nuL (scanNumber (spanAt (skipWhitespace s)) (skipWhitespace s)).2 < nuL s :=
            Nat.lt_of_lt_of_le (nuL_scanNumber_lt _ hp h2) hsw
          exact ⟨Nat.le_of_lt hlt, fun _ => hlt,
            fun h => absurd h (scanNumber_ne_eof _ _)⟩
        · simp only [h2, Bool.false_eq_true, if_false]
          by_cases h3 : c = '"'
          · simp only [h3, if_true]
            have hlt : nuL (scanString (spanAt (skipWhitespace s)) (skipWhitespace s)).2 < nuL s :=
              Nat.lt_of_lt_of_le (nuL_scanString_lt _ hp) hsw
            exact ⟨Nat.le_of_lt hlt, fun _ => hlt,
              fun h => absurd h (scanString_ne_eof _ _)⟩
          · simp only [h3, if_false]
            by_cases h4 : c = '/'
            · simp only [h4, if_true]
              have hs1 : nuL (advL (skipWhitespace s)).2 < nuL (skipWhitespace s) := by
                apply nuL_advL_lt
                rw [hp, h4]
              by_cases h5 : peekL (advL (skipWhitespace s)).2 = some '/'
              · simp only [h5, if_true]
                have hs2 : nuL (eatWhileL (fun x => x != '\n')
                    (advL (skipWhitespace s)).2).2 < nuL (advL (skipWhitespace s)).2 :=
                  nuL_eatWhileL_lt h5 rfl
                have hrec := ih (eatWhileL (fun x => x != '\n')
                    (advL (skipWhitespace s)).2).2 (by omega)
                refine ⟨?_, fun _ => ?_, hrec.2.2⟩
                · exact Nat.le_trans hrec.1 (by omega)
                · exact Nat.lt_of_le_of_lt hrec.1 (by omega)
              · simp only [h5, if_false]
                have hlt : nuL (advL (skipWhitespace s)).2 < nuL s :=
                  Nat.lt_of_lt_of_le hs1 hsw
                exact ⟨Nat.le_of_lt hlt, fun _ => hlt,
                  fun h => absurd h (fun h => TokenKind.noConfusion h)⟩
            · simp only [h4, if_false]
              have hs1 : nuL (advL (skipWhitespace s)).2 < nuL (skipWhitespace s) := by
                apply nuL_advL_lt
                exact hp
              have hlt : nuL (symbolToken c (advL (skipWhitespace s)).2).2 < nuL s :=
                Nat.lt_of_le_of_lt (nuL_symbolToken_le _ _)
                  (Nat.lt_of_lt_of_le hs1 hsw)
              exact ⟨Nat.le_of_lt hlt, fun _ => hlt,
                fun h => absurd h (symbolToken_ne_eof _ _)⟩


end ShallowsVM

namespace ShallowsVM

/-! ## Stability of end-of-input -/

theorem stAt_of_none {s : LSt} (h : peekL s = none) : ∀ n, stAt s n = s := by
  intro n
  induction n with
  | zero => rfl
  | succ n ih =>
    show stAt (nextToken s).2 n = s
    rw [nextToken_of_none h]
    exact ih

theorem tokAt_of_none {s : LSt} (h : peekL s = none) :
    ∀ n, (tokAt s n).kind = TokenKind.Eof := by
  intro n
  unfold tokAt
  rw [stAt_of_none h n, nextToken_of_none h]

/-- Once a call returns `Eof`, every call from then on returns `Eof`. -/
theorem eof_stable {s : LSt} (h : (nextToken s).1.kind = TokenKind.Eof) :
    ∀ n, (tokAt s n).kind = TokenKind.Eof := by
  intro n
  cases n with
  | zero => exact h
  | succ n =>
    have hnone : peekL (nextToken s).2 = none :=
      (nextToken_nu (nuL s) s (Nat.le_refl _)).2.2 h
    show (tokAt (nextToken s).2 n).kind = TokenKind.Eof
    exact tokAt_of_none hnone n

theorem stAt_succ (s : LSt) : ∀ n, stAt s (n + 1) = (nextToken (stAt s n)).2 := by
  intro n
  induction n generalizing s with
  | zero => rfl
  | succ n ih =>
    show stAt (nextToken s).2 (n + 1) = _
    rw [ih (nextToken s).2]
    rfl

end ShallowsVM

namespace ShallowsVM

theorem get?_of_drop_cons {L : List Line} {j : Nat} {l : Line} {rest : List Line}
    (hd : L.drop j = l :: rest) : L.get? j = some l := by
  have h0 : (L.drop j).get? 0 = L.get? (j + 0) := by
    rw [List.get?_eq_getElem?, List.get?_eq_getElem?]
    exact List.getElem?_drop L j 0
  rw [hd] at h0
  simpa using h0.symm

/-- On a state whose remaining logical input is the single trailing virtual
newline (or already stuck), the very next call returns `Eof`. -/
theorem nextToken_eof_of_nuL_one {s : LSt} (h : nuL s = 1) :
    (nextToken s).1.kind = TokenKind.Eof := by
  unfold nuL at h
  cases hd : s.lines.drop s.li with
  | nil =>
    rw [hd] at h
    simp only [] at h
    omega
  | cons l rest =>
    rw [hd] at h
    simp only [] at h
    have hci : l.content.length ≤ s.ci := by omega
    have hrest : rest = [] := tailLen_eq_zero (by omega)
    have hg : s.lines.get? s.li = some l := get?_of_drop_cons hd
    have hlt : s.li < s.lines.length := by
      by_contra hle
      rw [List.get?_eq_none.2 (by omega)] at hg
      exact Option.noConfusion hg
    by_cases hb : s.ci < byteLen l.content
    · have hpn : peekL s = none := by
        unfold peekL
        rw [hg]
        simp only [Option.some_bind]
        rw [if_pos hb]
        exact List.get?_eq_none.2 hci
      rw [nextToken_of_none hpn]
    · have hpk : peekL s = some '\n' := by
        unfold peekL
        rw [hg]
        simp only [Option.some_bind]
        rw [if_neg hb, if_pos hlt]
      have hadv : (advL s).2 = ⟨s.lines, s.li + 1, 0⟩ := by
        rw [advL_of_peek hpk]
        simp
      have hdrop1 : s.lines.drop (s.li + 1) = [] := by
        have := drop_eq_cons_of_get? hg
        rw [hd] at this
        rw [hrest] at this
        exact (List.cons.inj this).2.symm
      have hnu0 : nuL (⟨s.lines, s.li + 1, 0⟩ : LSt) = 0 := by
        rw [nuL_ci_zero, hdrop1]
        rfl
      have hpn2 : peekL (⟨s.lines, s.li + 1, 0⟩ : LSt) = none :=
        peekL_none_of_nuL_zero hnu0
      have hsw : skipWhitespace s = ⟨s.lines, s.li + 1, 0⟩ := by
        unfold skipWhitespace
        rw [eatWhileL_pos hpk rfl, hadv, eatWhileL_none hpn2]
      rw [nextToken_eq]
      simp only [hsw, hpn2]

/-- Every token from index `nuL s - 1` on is `Eof`: end-of-input is reached
within a number of calls bounded by the remaining input length. -/
theorem tokAt_eof_bound :
    ∀ (n : Nat) (s : LSt) (k : Nat), nuL s ≤ n → nuL s ≤ k + 1 →
      (tokAt s k).kind = TokenKind.Eof := by
  intro n
  induction n with
  | zero =>
    intro s k h0 _
    exact tokAt_of_none (peekL_none_of_nuL_zero (by omega)) k
  | succ n ih =>
    intro s k hn hk
    by_cases hp : peekL s = none
    · exact tokAt_of_none hp k
    · have h1 : 1 ≤ nuL s := by
        obtain ⟨c, hc⟩ := Option.ne_none_iff_exists'.1 hp
        exact nuL_pos_of_peek hc
      by_cases heof : (nextToken s).1.kind = TokenKind.Eof
      · exact eof_stable heof k
      · have hlt : nuL (nextToken s).2 < nuL s :=
          (nextToken_nu (nuL s) s (Nat.le_refl _)).2.1 hp
        cases k with
        | zero => exact nextToken_eof_of_nuL_one (s := s) (by omega)
        | succ k =>
          show (tokAt (nextToken s).2 k).kind = TokenKind.Eof
          exact ih (nextToken s).2 k (by omega) (by omega)

theorem nuL_initL (lines : List Line) : nuL (initL lines) = tailLen lines := by
  unfold nuL initL
  cases lines with
  | nil => rfl
  | cons l rest =>
    simp only [List.drop_zero]
    simp [tailLen]

end ShallowsVM

namespace ShallowsVM

/-! ## line_map.rs: eager/streaming agreement and filtering -/

theorem linesFromPathGo_ok (ε : Type) :
    ∀ (cs : List (List Char)) (i : Nat),
      linesFromPathGo ε i (cs.map Except.ok) =
        Except.ok (((List.enumFrom i cs).filter
          (fun p => decide (p.2 ≠ []))).map (fun p => ⟨p.1, p.2⟩)) := by
  intro cs
  induction cs with
  | nil => intro i; rfl
  | cons c rest ih =>
    intro i
    show linesFromPathGo ε i (Except.ok c :: rest.map Except.ok) = _
    rw [List.enumFrom_cons]
    by_cases hc : c = []
    · rw [show linesFromPathGo ε i (Except.ok c :: rest.map Except.ok) =
          (if c = [] then linesFromPathGo ε (i + 1) (rest.map Except.ok)
           else (linesFromPathGo ε (i + 1) (rest.map Except.ok)).map
             (fun ls => ⟨i, c⟩ :: ls)) from rfl]
      rw [if_pos hc, ih (i + 1), List.filter_cons]
      simp [hc]
    · rw [show linesFromPathGo ε i (Except.ok c :: rest.map Except.ok) =
          (if c = [] then linesFromPathGo ε (i + 1) (rest.map Except.ok)
           else (linesFromPathGo ε (i + 1) (rest.map Except.ok)).map
             (fun ls => ⟨i, c⟩ :: ls)) from rfl]
      rw [if_neg hc, ih (i + 1), List.filter_cons]
      simp [hc, Except.map]

theorem pairwise_fst_enumFrom {α : Type} :
    ∀ (cs : List α) (i : Nat),
      (List.enumFrom i cs).Pairwise (fun a b => a.1 < b.1) := by
  intro cs
  induction cs with
  | nil => intro i; exact List.Pairwise.nil
  | cons c rest ih =>
    intro i
    rw [List.enumFrom_cons]
    refine List.Pairwise.cons ?_ (ih (i + 1))
    intro b hb
    have hb2 : (b.1, b.2) ∈ List.enumFrom (i + 1) rest := hb
    have := (List.mk_mem_enumFrom_iff_le_and_getElem?_sub.1 hb2).1
    omega

theorem readerStream_agrees (ε : Type) :
    ∀ (outs : List (Except ε (List Char))) (i : Nat) (ls : List Line),
      linesFromPathGo ε i outs = Except.ok ls →
        lineReaderStream ε i outs = ls.map Except.ok := by
  intro outs
  induction outs with
  | nil =>
    intro i ls h
    have : ls = [] := (Except.ok.inj h).symm
    rw [this]
    rfl
  | cons o rest ih =>
    intro i ls h
    cases o with
    | error e =>
      exact absurd h (by
        rw [show linesFromPathGo ε i (Except.error e :: rest) = Except.error e from rfl]
        intro hx
        exact Except.noConfusion hx)
    | ok c =>
      by_cases hc : c = []
      · rw [show linesFromPathGo ε i (Except.ok c :: rest) =
            (if c = [] then linesFromPathGo ε (i + 1) rest
             else (linesFromPathGo ε (i + 1) rest).map
               (fun ls => ⟨i, c⟩ :: ls)) from rfl, if_pos hc] at h
        rw [show lineReaderStream ε i (Except.ok c :: rest) =
            (if c = [] then lineReaderStream ε (i + 1) rest
             else Except.ok ⟨i, c⟩ :: lineReaderStream ε (i + 1) rest) from rfl,
          if_pos hc]
        exact ih (i + 1) ls h
      · rw [show linesFromPathGo ε i (Except.ok c :: rest) =
            (if c = [] then linesFromPathGo ε (i + 1) rest
             else (linesFromPathGo ε (i + 1) rest).map
               (fun ls => ⟨i, c⟩ :: ls)) from rfl, if_neg hc] at h
        rw [show lineReaderStream ε i (Except.ok c :: rest) =
            (if c = [] then lineReaderStream ε (i + 1) rest
             else Except.ok ⟨i, c⟩ :: lineReaderStream ε (i + 1) rest) from rfl,
          if_neg hc]
        cases hrec : linesFromPathGo ε (i + 1) rest with
        | error e =>
          rw [hrec] at h
          exact absurd h (by
            rw [show (Except.error e : Except ε (List Line)).map
                (fun ls => (⟨i, c⟩ : Line) :: ls) = Except.error e from rfl]
            intro hx
            exact Except.noConfusion hx)
        | ok ls2 =>
          rw [hrec] at h
          have hls : ls = ⟨i, c⟩ :: ls2 := by
            rw [show (Except.ok ls2 : Except ε (List Line)).map
                (fun ls => (⟨i, c⟩ : Line) :: ls) =
                Except.ok ((⟨i, c⟩ : Line) :: ls2) from rfl] at h
            exact (Except.ok.inj h).symm
          rw [hls]
          rw [List.map_cons]
          rw [ih (i + 1) ls2 hrec]

end ShallowsVM

namespace ShallowsVM

/-! ## The stream of the iterator-based cursor (cursor.rs) -/

theorem joinStream_cons (l : Line) (rest : List Line) :
    joinStream (l :: rest) = l.content ++ '\n' :: joinStream rest := by
  simp [joinStream]

theorem nuC_advC_lt {t : CSt} {c : Char} (h : peekC t = some c) :
    nuC (advC t).2 < nuC t := by
  cases hc : t.chars with
  | cons c' rest =>
    have hadv : advC t = (some c', { t with ci := t.ci + 1, chars := rest }) := by
      unfold advC
      rw [hc]
    rw [hadv]
    unfold nuC
    simp only [hc]
    simp
  | nil =>
    have hli : t.li < t.lines.length := by
      by_contra hn
      unfold peekC at h
      rw [hc] at h
      simp only [List.head?_nil] at h
      rw [if_neg hn] at h
      exact Option.noConfusion h
    have hadv : advC t = (some '\n',
        { t with li := t.li + 1, ci := 0,
                 chars := ((t.lines.get? (t.li + 1)).map Line.content).getD [] }) := by
      unfold advC
      rw [hc]
      rw [if_pos hli]
    rw [hadv]
    have hold : nuC t = 1 + tailLen (t.lines.drop (t.li + 1)) := by
      unfold nuC
      rw [hc, if_pos hli]
      simp
    rw [hold]
    by_cases h2 : t.li + 1 < t.lines.length
    · obtain ⟨l', hg⟩ : ∃ l', t.lines.get? (t.li + 1) = some l' := by
        rcases ho : t.lines.get? (t.li + 1) with _ | l'
        · rw [List.get?_eq_none] at ho
          omega
        · exact ⟨l', rfl⟩
      have hdrop := drop_eq_cons_of_get? hg
      unfold nuC
      simp only [hg]
      rw [if_pos h2, hdrop]
      simp [tailLen]
      omega
    · have hdrop : t.lines.drop (t.li + 1) = [] :=
        List.drop_eq_nil_of_le (by omega)
      have hg : t.lines.get? (t.li + 1) = none := List.get?_eq_none.2 (by omega)
      unfold nuC
      simp only [hg]
      rw [if_neg h2, hdrop]
      simp [tailLen]

theorem streamCF_mono :
    ∀ (f : Nat) {t : CSt} (g : Nat), nuC t < f → nuC t < g →
      streamCF f t = streamCF g t := by
  intro f
  induction f with
  | zero => intro t g hf _; omega
  | succ f ih =>
    intro t g hf hg
    cases g with
    | zero => omega
    | succ g =>
      show streamCF (f + 1) t = streamCF (g + 1) t
      simp only [streamCF]
      cases hp : peekC t with
      | none => rfl
      | some c =>
        have hlt := nuC_advC_lt hp
        rw [ih (g := g) (by omega) (by omega)]

theorem streamC_none {t : CSt} (h : peekC t = none) : streamC t = [] := by
  unfold streamC
  rw [show streamCF (nuC t + 1) t =
      match peekC t with
      | none => []
      | some c => c :: streamCF (nuC t) (advC t).2 from rfl]
  rw [h]

theorem streamC_cons {t : CSt} {c : Char} (h : peekC t = some c) :
    streamC t = c :: streamC (advC t).2 := by
  unfold streamC
  rw [show streamCF (nuC t + 1) t =
      match peekC t with
      | none => []
      | some c => c :: streamCF (nuC t) (advC t).2 from rfl]
  rw [h]
  have hlt := nuC_advC_lt h
  rw [streamCF_mono (nuC t) (nuC (advC t).2 + 1) (by omega) (by omega)]

/-- The remaining stream of any iterator-based cursor state: the pending
characters of the active line, then one newline and every later line
followed by its newline. -/
theorem streamC_state :
    ∀ (n : Nat) (t : CSt), nuC t ≤ n →
      streamC t = t.chars ++
        (if t.li < t.lines.length
         then '\n' :: joinStream (t.lines.drop (t.li + 1)) else []) := by
  intro n
  induction n with
  | zero =>
    intro t h0
    have h00 : nuC t = 0 := by omega
    unfold nuC at h00
    have hch : t.chars = [] := by
      cases hcc : t.chars with
      | nil => rfl
      | cons c rest =>
        rw [hcc] at h00
        simp at h00
    have hli : ¬ t.li < t.lines.length := by
      intro hlt
      rw [if_pos hlt] at h00
      omega
    have hp : peekC t = none := by
      unfold peekC
      rw [hch]
      simp only [List.head?_nil]
      rw [if_neg hli]
    rw [streamC_none hp, hch, if_neg hli]
    rfl
  | succ n ih =>
    intro t hle
    cases hc : t.chars with
    | cons c rest =>
      have hp : peekC t = some c := by
        unfold peekC
        rw [hc]
        rfl
      have hadv : advC t = (some c, { t with ci := t.ci + 1, chars := rest }) := by
        unfold advC
        rw [hc]
      have hnu : nuC (advC t).2 < nuC t := nuC_advC_lt hp
      have h1 : (advC t).2.chars = rest := by rw [hadv]
      have h2 : (advC t).2.li = t.li := by rw [hadv]
      have h3 : (advC t).2.lines = t.lines := by rw [hadv]
      rw [streamC_cons hp, ih (advC t).2 (by omega), h1, h2, h3]
      rfl
    | nil =>
      by_cases hli : t.li < t.lines.length
      · have hp : peekC t = some '\n' := by
          unfold peekC
          rw [hc]
          simp only [List.head?_nil]
          rw [if_pos hli]
        have hadv : advC t = (some '\n',
            { t with li := t.li + 1, ci := 0,
                     chars := ((t.lines.get? (t.li + 1)).map Line.content).getD [] }) := by
          unfold advC
          rw [hc]
          rw [if_pos hli]
        have hnu : nuC (advC t).2 < nuC t := nuC_advC_lt hp
        have h1 : (advC t).2.chars =
            ((t.lines.get? (t.li + 1)).map Line.content).getD [] := by rw [hadv]
        have h2 : (advC t).2.li = t.li + 1 := by rw [hadv]
        have h3 : (advC t).2.lines = t.lines := by rw [hadv]
        rw [streamC_cons hp, ih (advC t).2 (by omega), h1, h2, h3, if_pos hli]
        simp only [List.nil_append]
        by_cases h4 : t.li + 1 < t.lines.length
        · obtain ⟨l', hg⟩ : ∃ l', t.lines.get? (t.li + 1) = some l' := by
            rcases ho : t.lines.get? (t.li + 1) with _ | l'
            · rw [List.get?_eq_none] at ho
              omega
            · exact ⟨l', rfl⟩
          have hdrop := drop_eq_cons_of_get? hg
          simp only [hg, if_pos h4]
          rw [hdrop, joinStream_cons]
          rfl
        · have hdrop : t.lines.drop (t.li + 1) = [] :=
            List.drop_eq_nil_of_le (by omega)
          have hg : t.lines.get? (t.li + 1) = none := List.get?_eq_none.2 (by omega)
          simp only [hg, if_neg h4]
          rw [hdrop]
          rfl
      · have hp : peekC t = none := by
          unfold peekC
          rw [hc]
          simp only [List.head?_nil]
          rw [if_neg hli]
        rw [streamC_none hp, if_neg hli]
        rfl

/-- From a fresh cursor the full scanned stream is every stored line's
content followed by exactly one synthesized newline. -/
theorem streamC_init (lines : List Line) :
    streamC (initC lines) = joinStream lines := by
  cases lines with
  | nil => rfl
  | cons l rest =>
    have h := streamC_state (nuC (initC (l :: rest))) (initC (l :: rest))
      (Nat.le_refl _)
    have hch : (initC (l :: rest)).chars = l.content := rfl
    have hli : (initC (l :: rest)).li < (initC (l :: rest)).lines.length := by
      show 0 < (l :: rest).length
      simp
    rw [if_pos hli] at h
    rw [h, hch]
    rw [show (initC (l :: rest)).lines.drop ((initC (l :: rest)).li + 1) = rest from rfl]
    rw [joinStream_cons]

end ShallowsVM

namespace ShallowsVM

/-! ## scan_string versus the remaining stream (C8) -/

theorem scanStrBody_mono :
    ∀ (f : Nat) {s : LSt} (g : Nat), nuL s < f → nuL s < g →
      scanStrBody f s = scanStrBody g s := by
  intro f
  induction f with
  | zero => intro s g hf _; omega
  | succ f ih =>
    intro s g hf hg
    cases g with
    | zero => omega
    | succ g =>
      show scanStrBody (f + 1) s = scanStrBody (g + 1) s
      simp only [scanStrBody]
      cases hp : peekL s with
      | none => rfl
      | some c =>
        by_cases hc : c = '"'
        · simp [hc]
        · simp only [if_neg hc]
          have hlt := nuL_advL_lt hp
          rw [ih (g := g) (by omega) (by omega)]

/-- The string-body loop takes exactly the characters before the next `"`
of the remaining stream, stops on it, and never moves past it. -/
theorem scanStrBody_stream :
    ∀ (n : Nat) (s : LSt), nuL s ≤ n →
      (scanStrBody (nuL s + 1) s).1 =
        (streamL s).takeWhile (fun c => c != '"') ∧
      streamL (scanStrBody (nuL s + 1) s).2 =
        (streamL s).dropWhile (fun c => c != '"') ∧
      ('"' ∈ streamL s → peekL (scanStrBody (nuL s + 1) s).2 = some '"') := by
  intro n
  induction n with
  | zero =>
    intro s h0
    have hp : peekL s = none := peekL_none_of_nuL_zero (by omega)
    have hstep : scanStrBody (nuL s + 1) s = ([], s) := by
      simp only [scanStrBody]
      rw [hp]
    have hstr : streamL s = [] := streamL_none hp
    rw [hstep, hstr]
    refine ⟨rfl, ?_, ?_⟩
    · rfl
    · intro hmem
      exact absurd hmem (List.not_mem_nil _)
  | succ n ih =>
    intro s hle
    cases hp : peekL s with
    | none =>
      have hstep : scanStrBody (nuL s + 1) s = ([], s) := by
        simp only [scanStrBody]
        rw [hp]
      have hstr : streamL s = [] := streamL_none hp
      rw [hstep, hstr]
      refine ⟨rfl, ?_, ?_⟩
      · rfl
      · intro hmem
        exact absurd hmem (List.not_mem_nil _)
    | some c =>
      have hstr : streamL s = c :: streamL (advL s).2 := streamL_cons hp
      by_cases hc : c = '"'
      · subst hc
        have hstep : scanStrBody (nuL s + 1) s = ([], s) := by
          simp only [scanStrBody]
          rw [hp]
          simp
        rw [hstep, hstr]
        refine ⟨?_, ?_, fun _ => ?_⟩
        · rw [List.takeWhile_cons]
          simp
        · simp
        · exact hp
      · have hlt := nuL_advL_lt hp
        have hstep : scanStrBody (nuL s + 1) s =
            (c :: (scanStrBody (nuL (advL s).2 + 1) (advL s).2).1,
             (scanStrBody (nuL (advL s).2 + 1) (advL s).2).2) := by
          conv =>
            lhs
            rw [show scanStrBody (nuL s + 1) s =
                (match peekL s with
                 | none => ([], s)
                 | some c =>
                   if c = '"' then ([], s)
                   else (c :: (scanStrBody (nuL s) (advL s).2).1,
                         (scanStrBody (nuL s) (advL s).2).2)) from rfl]
          rw [hp]
          simp only []
          rw [if_neg hc]
          rw [scanStrBody_mono (nuL s) (nuL (advL s).2 + 1) (by omega) (by omega)]
        obtain ⟨ih1, ih2, ih3⟩ := ih (advL s).2 (by omega)
        rw [hstep, hstr]
        have hbne : (c != '"') = true := by
          simp [hc]
        refine ⟨?_, ?_, ?_⟩
        · rw [List.takeWhile_cons, hbne, if_pos rfl, ih1]
        · rw [List.dropWhile_cons, hbne, if_pos rfl]
          exact ih2
        · intro hmem
          rcases List.mem_cons.1 hmem with h | h
          · exact absurd h.symm hc
          · exact ih3 h

end ShallowsVM

namespace ShallowsVM

/-- `scan_string` behaviour, stated against the remaining character stream
after the opening quote: with no closing quote in the remaining input it
yields the unterminated-string error; with one it yields a string token of
the intervening characters and consumes and discards the closing quote. -/
theorem scanString_spec (st : Span) {s : LSt} (h : peekL s = some '"') :
    ((¬ '"' ∈ streamL (advL s).2) →
      (scanString st s).1.kind = TokenKind.Error "Unterminated string") ∧
    ('"' ∈ streamL (advL s).2 →
      (scanString st s).1.kind =
        TokenKind.String
          (((streamL (advL s).2).takeWhile (fun c => c != '"')).asString) ∧
      streamL (scanString st s).2 =
        ((streamL (advL s).2).dropWhile (fun c => c != '"')).drop 1) := by
  obtain ⟨b1, b2, b3⟩ :=
    scanStrBody_stream (nuL (advL s).2) (advL s).2 (Nat.le_refl _)
  constructor
  · intro hnot
    have hall : ∀ x ∈ streamL (advL s).2, (x != '"') = true := by
      intro x hx
      simp only [bne_iff_ne, ne_eq]
      intro hxx
      exact hnot (hxx ▸ hx)
    have hdw : (streamL (advL s).2).dropWhile (fun c => c != '"') = [] :=
      List.dropWhile_eq_nil_iff.2 hall
    have hpk : peekL (scanStrBody (nuL (advL s).2 + 1) (advL s).2).2 = none := by
      rw [peekL_eq_head, b2, hdw]
      rfl
    unfold scanString
    simp only []
    rw [hpk]
    simp
  · intro hmem
    have hpk : peekL (scanStrBody (nuL (advL s).2 + 1) (advL s).2).2 = some '"' :=
      b3 hmem
    have hcons : streamL (scanStrBody (nuL (advL s).2 + 1) (advL s).2).2 =
        '"' :: streamL (advL (scanStrBody (nuL (advL s).2 + 1) (advL s).2).2).2 :=
      streamL_cons hpk
    unfold scanString
    simp only []
    rw [hpk, if_pos rfl]
    refine ⟨by rw [b1], ?_⟩
    have : (streamL (advL s).2).dropWhile (fun c => c != '"') =
        '"' :: streamL (advL (scanStrBody (nuL (advL s).2 + 1) (advL s).2).2).2 := by
      rw [← b2]
      exact hcons
    rw [this]
    rfl

/-- When the next character is a double quote, `next_token` runs the
string scan from the current state. -/
theorem nextToken_quote {s : LSt} (h : peekL s = some '"') :
    nextToken s = scanString (spanAt s) s := by
  have hws : skipWhitespace s = s :=
    skipWhitespace_of_nonws h (by decide)
  rw [nextToken_eq]
  simp only [hws, h]
  have e1 : isIdentStart '"' = false := rfl
  have e2 : ('"' : Char).isDigit = false := rfl
  simp [e1, e2]

end ShallowsVM

namespace ShallowsVM

/-! ## Observational equivalence of the two cursors on good collections (C9) -/

theorem advC_none {t : CSt} (h : peekC t = none) : advC t = (none, t) := by
  unfold peekC at h
  cases hc : t.chars with
  | cons c rest =>
    rw [hc] at h
    exact Option.noConfusion h
  | nil =>
    rw [hc] at h
    simp only [List.head?_nil] at h
    unfold advC
    rw [hc]
    by_cases hli : t.li < t.lines.length
    · rw [if_pos hli] at h
      exact Option.noConfusion h
    · rw [if_neg hli]

theorem eatWhileCF_mono (p : Char → Bool) :
    ∀ (f : Nat) {t : CSt} (g : Nat), nuC t < f → nuC t < g →
      eatWhileCF p f t = eatWhileCF p g t := by
  intro f
  induction f with
  | zero => intro t g hf _; omega
  | succ f ih =>
    intro t g hf hg
    cases g with
    | zero => omega
    | succ g =>
      show eatWhileCF p (f + 1) t = eatWhileCF p (g + 1) t
      simp only [eatWhileCF]
      cases hp : peekC t with
      | none => rfl
      | some c =>
        by_cases hc : p c
        · simp only [hc, if_true]
          have hlt := nuC_advC_lt hp
          rw [ih (g := g) (by omega) (by omega)]
        · simp only [hc, Bool.false_eq_true, if_false]

theorem eatWhileC_eq (p : Char → Bool) (t : CSt) :
    eatWhileC p t =
      match peekC t with
      | none => ([], t)
      | some c =>
        if p c then
          let r := eatWhileC p (advC t).2
          (c :: r.1, r.2)
        else ([], t) := by
  unfold eatWhileC
  rw [show eatWhileCF p (nuC t + 1) t =
      match peekC t with
      | none => ([], t)
      | some c =>
        if p c then
          let r := eatWhileCF p (nuC t) (advC t).2
          (c :: r.1, r.2)
        else ([], t) from rfl]
  cases hp : peekC t with
  | none => rfl
  | some c =>
    by_cases hc : p c
    · simp only [hc, if_true]
      have hlt := nuC_advC_lt hp
      rw [eatWhileCF_mono p (nuC t) (nuC (advC t).2 + 1) (by omega) (by omega)]
    · simp only [hc, Bool.false_eq_true, if_false]

theorem byteLen_of_good {lines : List Line} {j : Nat} {l : Line}
    (hgood : goodLines lines) (hg : lines.get? j = some l) :
    byteLen l.content = l.content.length :=
  (hgood l (List.get?_mem hg)).1

theorem no_newline_of_good {lines : List Line} {j : Nat} {l : Line}
    (hgood : goodLines lines) (hg : lines.get? j = some l) :
    ∀ c ∈ l.content, c ≠ '\n' :=
  (hgood l (List.get?_mem hg)).2

/-- Under the simulation relation the two `peek`s agree. -/
theorem rel_peek {s : LSt} {t : CSt} (R : RelLC s t) : peekL s = peekC t := by
  obtain ⟨hl, hli, hci, hgood, hpos, hch⟩ := R
  cases hg : s.lines.get? s.li with
  | none =>
    have hchn : t.chars = [] := by
      rw [hch, hg]
    have hlen : s.lines.length ≤ s.li := by
      by_contra hlt
      rw [List.get?_eq_none] at hg
      omega
    unfold peekL peekC
    rw [hg, hchn]
    simp only [List.head?_nil, Option.none_bind]
    rw [if_neg (by rw [← hl, ← hli]; omega)]
  | some l =>
    have hb : byteLen l.content = l.content.length := byteLen_of_good hgood hg
    have hlt : s.li < s.lines.length := by
      by_contra hle
      rw [List.get?_eq_none.2 (by omega)] at hg
      exact Option.noConfusion hg
    have hchars : t.chars = l.content.drop s.ci := by
      rw [hch, hg]
    by_cases hcl : s.ci < l.content.length
    · have hd : l.content.drop s.ci ≠ [] := by
        intro hnil
        rw [List.drop_eq_nil_iff] at hnil
        omega
      have hh : (l.content.drop s.ci).head? = l.content.get? s.ci := by
        rw [List.head?_eq_getElem?, List.getElem?_drop]
        rw [List.get?_eq_getElem?]
        norm_num
      unfold peekL peekC
      rw [hg, hchars, hh]
      simp only [Option.some_bind]
      rw [if_pos (by omega)]
      cases hgc : l.content.get? s.ci with
      | none =>
        rw [List.get?_eq_none] at hgc
        omega
      | some c => rfl
    · have hd : l.content.drop s.ci = [] := List.drop_eq_nil_of_le (by omega)
      unfold peekL peekC
      rw [hg, hchars, hd]
      simp only [List.head?_nil, Option.some_bind]
      rw [if_neg (by omega), if_pos hlt, if_pos (by rw [← hl, ← hli]; exact hlt)]

/-- Under the simulation relation `advance` returns the same character and
re-establishes the relation. -/
theorem rel_adv {s : LSt} {t : CSt} (R : RelLC s t) :
    (advL s).1 = (advC t).1 ∧ RelLC (advL s).2 (advC t).2 := by
  have hpk := rel_peek R
  obtain ⟨hl, hli, hci, hgood, hpos, hch⟩ := R
  cases hp : peekL s with
  | none =>
    have hpc : peekC t = none := by rw [← hpk, hp]
    rw [advL_none hp, advC_none hpc]
    exact ⟨rfl, hl, hli, hci, hgood, hpos, hch⟩
  | some c =>
    have hpc : peekC t = some c := by rw [← hpk, hp]
    cases hg : s.lines.get? s.li with
    | none =>
      exfalso
      unfold peekL at hp
      rw [hg] at hp
      exact Option.noConfusion hp
    | some l =>
      have hb : byteLen l.content = l.content.length := byteLen_of_good hgood hg
      have hlt : s.li < s.lines.length := by
        by_contra hle
        rw [List.get?_eq_none.2 (by omega)] at hg
        exact Option.noConfusion hg
      have hchars : t.chars = l.content.drop s.ci := by
        rw [hch, hg]
      by_cases hcl : s.ci < l.content.length
      · -- the character comes from the stored content
        have hgc : l.content.get? s.ci = some c := by
          apply peekL_content hg _ hp
          omega
        have hcne : c ≠ '\n' :=
          no_newline_of_good hgood hg c (List.get?_mem hgc)
        have hdrop : l.content.drop s.ci = c :: l.content.drop (s.ci + 1) := by
          rw [List.drop_eq_getElem_cons (by omega)]
          have : l.content[s.ci] = c := by
            have h2 := hgc
            rw [List.get?_eq_getElem?, List.getElem?_eq_getElem (by omega)] at h2
            exact Option.some.inj h2
          rw [this]
        have hadvL : advL s = (some c, { s with ci := s.ci + 1 }) := by
          rw [advL_of_peek hp, if_neg hcne]
        have hadvC : advC t = (some c,
            { t with ci := t.ci + 1, chars := l.content.drop (s.ci + 1) }) := by
          unfold advC
          rw [hchars, hdrop]
        rw [hadvL, hadvC]
        refine ⟨rfl, hl, hli, by simp [hci], hgood, hpos, ?_⟩
        simp only []
        rw [hg]
      · -- the synthesized newline
        have hd : l.content.drop s.ci = [] := List.drop_eq_nil_of_le (by omega)
        have hcn : c = '\n' := by
          unfold peekL at hp
          rw [hg] at hp
          simp only [Option.some_bind] at hp
          rw [if_neg (by omega), if_pos hlt] at hp
          exact (Option.some.inj hp).symm
        have hadvL : advL s = (some '\n', { s with li := s.li + 1, ci := 0 }) := by
          rw [advL_of_peek hp, if_pos hcn]
        have hadvC : advC t = (some '\n',
            { t with li := t.li + 1, ci := 0,
                     chars := ((t.lines.get? (t.li + 1)).map Line.content).getD [] }) := by
          unfold advC
          rw [hchars, hd]
          rw [if_pos (by rw [← hl, ← hli]; exact hlt)]
        rw [hadvL, hadvC]
        subst hcn
        refine ⟨rfl, hl, by simp [hli], rfl, hgood, ?_, ?_⟩
        · intro _
          intro hnil
          rw [hnil] at hg
          simp at hg
        · simp only []
          rw [← hl, ← hli]
          cases hg2 : s.lines.get? (s.li + 1) with
          | none => rfl
          | some l2 => simp

end ShallowsVM

namespace ShallowsVM

/-- Under the simulation relation the two `loc`s agree (the index-based one
does not panic). -/
theorem rel_loc {s : LSt} {t : CSt} (R : RelLC s t) : locL s = some (locC t) := by
  obtain ⟨hl, hli, hci, hgood, hpos, hch⟩ := R
  unfold locL locC
  rw [← hl, ← hli, ← hci]
  cases hg : s.lines.get? s.li with
  | some l => rfl
  | none =>
    by_cases h0 : 0 < s.li
    · have hne : s.lines ≠ [] := hpos h0
      have hlen : 0 < s.lines.length := List.length_pos.2 hne
      obtain ⟨last, hlast⟩ : ∃ last, s.lines.get? (s.lines.length - 1) = some last := by
        rcases ho : s.lines.get? (s.lines.length - 1) with _ | last
        · rw [List.get?_eq_none] at ho
          omega
        · exact ⟨last, rfl⟩
      rw [if_pos h0, if_pos ⟨h0, hne⟩, hlast]
      rfl
    · rw [if_neg h0, if_neg (by intro hand; exact h0 hand.1)]

/-- Under the simulation relation `eat_while` returns the same text and
re-establishes the relation. -/
theorem rel_eatWhile (p : Char → Bool) :
    ∀ (n : Nat) (s : LSt) (t : CSt), nuL s ≤ n → RelLC s t →
      (eatWhileL p s).1 = (eatWhileC p t).1 ∧
      RelLC (eatWhileL p s).2 (eatWhileC p t).2 := by
  intro n
  induction n with
  | zero =>
    intro s t h0 R
    have hp : peekL s = none := peekL_none_of_nuL_zero (by omega)
    have hpc : peekC t = none := by rw [← rel_peek R, hp]
    rw [eatWhileL_none hp]
    rw [eatWhileC_eq, hpc]
    exact ⟨rfl, R⟩
  | succ n ih =>
    intro s t hle R
    cases hp : peekL s with
    | none =>
      have hpc : peekC t = none := by rw [← rel_peek R, hp]
      rw [eatWhileL_none hp]
      rw [eatWhileC_eq, hpc]
      exact ⟨rfl, R⟩
    | some c =>
      have hpc : peekC t = some c := by rw [← rel_peek R, hp]
      by_cases hc : p c
      · have hlt := nuL_advL_lt hp
        obtain ⟨ha1, ha2⟩ := rel_adv R
        obtain ⟨ih1, ih2⟩ := ih (advL s).2 (advC t).2 (by omega) ha2
        rw [eatWhileL_pos hp hc]
        rw [eatWhileC_eq, hpc]
        simp only [hc, if_true]
        exact ⟨by rw [ih1], ih2⟩
      · rw [eatWhileL_neg hp (Bool.not_eq_true _ ▸ hc)]
        rw [eatWhileC_eq, hpc]
        simp only [hc, Bool.false_eq_true, if_false]
        exact ⟨by trivial, R⟩

/-- Any identical sequence of `peek`/`advance`/`eat_while`/`loc` calls
returns identical results on related states. -/
theorem rel_run :
    ∀ (ops : List COp) (s : LSt) (t : CSt), RelLC s t →
      runL ops s = runC ops t := by
  intro ops
  induction ops with
  | nil => intro s t _; rfl
  | cons op rest ih =>
    intro s t R
    cases op with
    | peek =>
      show COut.ch (peekL s) :: runL rest s = COut.ch (peekC t) :: runC rest t
      rw [rel_peek R, ih s t R]
    | advance =>
      obtain ⟨h1, h2⟩ := rel_adv R
      show COut.ch (advL s).1 :: runL rest (advL s).2 =
        COut.ch (advC t).1 :: runC rest (advC t).2
      rw [h1, ih (advL s).2 (advC t).2 h2]
    | loc =>
      show COut.pos (locL s) :: runL rest s = COut.pos (some (locC t)) :: runC rest t
      rw [rel_loc R, ih s t R]
    | eatWhile p =>
      obtain ⟨h1, h2⟩ := rel_eatWhile p (nuL s) s t (Nat.le_refl _) R
      show COut.txt (eatWhileL p s).1 :: runL rest (eatWhileL p s).2 =
        COut.txt (eatWhileC p t).1 :: runC rest (eatWhileC p t).2
      rw [h1, ih (eatWhileL p s).2 (eatWhileC p t).2 h2]

/-- Fresh cursors over a good collection are related. -/
theorem rel_init {lines : List Line} (hgood : goodLines lines) :
    RelLC (initL lines) (initC lines) := by
  refine ⟨rfl, rfl, rfl, hgood, by intro h; exact absurd h (by simp [initL]), ?_⟩
  show ((lines.get? 0).map Line.content).getD [] =
    (match lines.get? 0 with
     | some l => l.content.drop 0
     | none => [])
  cases lines.get? 0 with
  | none => rfl
  | some l => simp

/-! ## Reachability invariant of the index-based cursor (C10) -/

theorem lines_ne_nil_of_peekL {s : LSt} {c : Char} (h : peekL s = some c) :
    s.lines ≠ [] := by
  intro hnil
  unfold peekL at h
  rw [hnil] at h
  simp at h

/-- Along reachable states, a positive line index implies the collection is
non-empty: `line_idx` only becomes positive by advancing over a line that
exists. -/
theorem reachL_pos_nonempty {s : LSt} (h : ReachL s) :
    0 < s.li → s.lines ≠ [] := by
  induction h with
  | init lines =>
    intro h0
    exact absurd h0 (by simp [initL])
  | step hs ih =>
    rename_i s'
    cases hp : peekL s' with
    | none =>
      rw [advL_none hp]
      exact ih
    | some c =>
      rw [advL_of_peek hp]
      by_cases hc : c = '\n'
      · rw [if_pos hc]
        intro _
        show s'.lines ≠ []
        exact lines_ne_nil_of_peekL hp
      · rw [if_neg hc]
        exact ih

end ShallowsVM

namespace ShallowsVM

theorem stAt_add : ∀ (a : Nat) (s : LSt) (b : Nat),
    stAt s (a + b) = stAt (stAt s a) b := by
  intro a
  induction a with
  | zero =>
    intro s b
    rw [Nat.zero_add]
    rfl
  | succ a ih =>
    intro s b
    have e : a + 1 + b = (a + b) + 1 := by omega
    rw [e]
    show stAt (nextToken s).2 (a + b) = _
    rw [ih (nextToken s).2 b]
    rfl

theorem tokAt_add (s : LSt) (a b : Nat) : tokAt s (a + b) = tokAt (stAt s a) b := by
  unfold tokAt
  rw [stAt_add a s b]

/-! ## The claims -/

/-- C1: the spec says all five literals round-trip as single tokens with the
raw text verbatim; the code's `scan_number` has no binary-prefix handling
(its own `TokenKind::Int` docstring lists `"0b1010"` as an intended raw
text), so `0b1010` lexes as the integer token `"0"` followed by the
identifier `b1010`, while `123u`, `10.0`, `1.5f` and `1e-3` do round-trip
verbatim with the stated kinds. -/
theorem claim1_literal_roundtrip_eval :
    ((tokAt (initL [⟨0, "0b1010".data⟩]) 0).kind = TokenKind.Int "0" ∧
     (tokAt (initL [⟨0, "0b1010".data⟩]) 1).kind = TokenKind.Ident "b1010" ∧
     (tokAt (initL [⟨0, "0b1010".data⟩]) 2).kind = TokenKind.Eof) ∧
    ((tokAt (initL [⟨0, "123u".data⟩]) 0).kind = TokenKind.Int "123u" ∧
     (tokAt (initL [⟨0, "123u".data⟩]) 1).kind = TokenKind.Eof) ∧
    ((tokAt (initL [⟨0, "10.0".data⟩]) 0).kind = TokenKind.Float "10.0" ∧
     (tokAt (initL [⟨0, "10.0".data⟩]) 1).kind = TokenKind.Eof) ∧
    ((tokAt (initL [⟨0, "1.5f".data⟩]) 0).kind = TokenKind.Float "1.5f" ∧
     (tokAt (initL [⟨0, "1.5f".data⟩]) 1).kind = TokenKind.Eof) ∧
    ((tokAt (initL [⟨0, "1e-3".data⟩]) 0).kind = TokenKind.Float "1e-3" ∧
     (tokAt (initL [⟨0, "1e-3".data⟩]) 1).kind = TokenKind.Eof) := by
  decide

/-- C2 counterexample: on the one-line collection `["a"]`, after consuming
`'a'` the active line (index 0) is the final stored line and its content is
exhausted, yet `peek` returns the synthesized newline, not `none`. -/
theorem claim2_counterexample :
    ((advC (initC [⟨0, ['a']⟩])).2.lines = [⟨0, ['a']⟩] ∧
     (advC (initC [⟨0, ['a']⟩])).2.li = 0 ∧
     (advC (initC [⟨0, ['a']⟩])).2.chars = []) ∧
    peekC (advC (initC [⟨0, ['a']⟩])).2 = some '\n' := by
  decide

/-- C2 (amended), per implementation.  Iterator-based cursor (`cursor.rs`):
with the active line's characters exhausted, `peek` returns the synthesized
newline as long as the cursor has not yet moved past the final stored line,
and returns none exactly once it has.  Index-based cursor (`lexer.rs`): the
same newline behaviour holds at an exhausted active line whenever that
line's content is ASCII (UTF-8 byte count = character count) — with
non-ASCII content its byte-length guard makes `peek` report none already at
the exhausted final line (the defect documented in C3/C9) — and past the
final stored line `peek` is none unconditionally. -/
theorem claim2_peek_final_newline :
    (∀ t : CSt, t.chars = [] →
      (t.li < t.lines.length → peekC t = some '\n') ∧
      (t.lines.length ≤ t.li → peekC t = none)) ∧
    (∀ (s : LSt) (l : Line), s.lines.get? s.li = some l →
      byteLen l.content = l.content.length → l.content.length ≤ s.ci →
      peekL s = some '\n') ∧
    (∀ s : LSt, s.lines.length ≤ s.li → peekL s = none) := by
  refine ⟨?_, ?_, ?_⟩
  · intro t h
    unfold peekC
    rw [h]
    simp only [List.head?_nil]
    constructor
    · intro hlt
      rw [if_pos hlt]
    · intro hle
      rw [if_neg (by omega)]
  · intro s l hg hb hci
    have hlt : s.li < s.lines.length := by
      by_contra hle
      rw [List.get?_eq_none.2 (by omega)] at hg
      exact Option.noConfusion hg
    unfold peekL
    rw [hg]
    simp only [Option.some_bind]
    rw [if_neg (by omega), if_pos hlt]
  · intro s hle
    unfold peekL
    rw [List.get?_eq_none.2 hle]
    rfl

/-- C2 witness: on `["a"]`, both cursors yield the synthesized newline at
the exhausted final line (state after one advance), and the index-based
cursor yields none once past it. -/
theorem claim2_witness :
    peekC (⟨[⟨0, ['a']⟩], 0, 1, []⟩ : CSt) = some '\n' ∧
    peekL (⟨[⟨0, ['a']⟩], 0, 1⟩ : LSt) = some '\n' ∧
    peekL (⟨[⟨0, ['a']⟩], 1, 0⟩ : LSt) = none :=
  ⟨(claim2_peek_final_newline.1 ⟨[⟨0, ['a']⟩], 0, 1, []⟩ rfl).1 (by decide),
   claim2_peek_final_newline.2.1 ⟨[⟨0, ['a']⟩], 0, 1⟩ ⟨0, ['a']⟩ rfl
     (by decide) (by decide),
   claim2_peek_final_newline.2.2 ⟨[⟨0, ['a']⟩], 1, 0⟩ (by decide)⟩

/-- C3 counterexample: the index-based cursor of `lexer.rs` compares the
column against the byte length but indexes by character, so on the
collection `["é"]` its stream is just `['é']` — no synthesized newline
after the final stored line, refuting the claim for that implementation. -/
theorem claim3_counterexample :
    streamL (initL [⟨0, ['é']⟩]) = ['é'] ∧
    '\n' ∉ streamL (initL [⟨0, ['é']⟩]) ∧
    streamL (initL [⟨0, ['é']⟩]) ≠ joinStream [⟨0, ['é']⟩] := by
  decide

/-- C3 (amended): for the iterator-based `Cursor::advance` of `cursor.rs`
the claim holds for every line collection: the scanned stream is exactly
each stored line's characters followed by one synthesized newline — in
particular one newline between consecutive stored lines and one after the
final line, so dropped blank runs collapse to a single newline. -/
theorem claim3_one_newline_per_boundary (lines : List Line) :
    streamC (initC lines) = joinStream lines :=
  streamC_init lines

/-- C4: whenever the eager builder succeeds, the streaming reader yields
exactly the same logical lines — same contents, same indices, same order,
and no error items. -/
theorem claim4_streaming_matches_eager (ε : Type)
    (outs : List (Except ε (List Char))) (ls : List Line)
    (h : linesFromPath ε outs = Except.ok ls) :
    lineReaderStream ε 0 outs = ls.map Except.ok :=
  readerStream_agrees ε outs 0 ls h

/-- C4 witness: on `["a", "", "b"]` both produce `"a"` at index 0 and `"b"`
at index 2. -/
theorem claim4_witness :
    linesFromPath Unit [Except.ok ['a'], Except.ok [], Except.ok ['b']] =
      Except.ok [⟨0, ['a']⟩, ⟨2, ['b']⟩] ∧
    lineReaderStream Unit 0 [Except.ok ['a'], Except.ok [], Except.ok ['b']] =
      [Except.ok ⟨0, ['a']⟩, Except.ok ⟨2, ['b']⟩] :=
  ⟨rfl, claim4_streaming_matches_eager Unit _ [⟨0, ['a']⟩, ⟨2, ['b']⟩] rfl⟩

/-- C5: `Lines::from_path` keeps exactly the raw lines with nonzero length
(whitespace-only lines included), each kept line's `idx` is its 0-based
ordinal among all lines read, indices are strictly increasing, and
conversely every nonempty raw line is kept. -/
theorem claim5_kept_lines (ε : Type) (cs : List (List Char)) :
    linesFromPath ε (cs.map Except.ok) = Except.ok (keptLines cs) ∧
    (keptLines cs).Pairwise (fun a b => a.idx < b.idx) ∧
    (∀ l ∈ keptLines cs, l.content ≠ [] ∧ cs.get? l.idx = some l.content) ∧
    (∀ (i : Nat) (c : List Char), cs.get? i = some c → c ≠ [] →
      (⟨i, c⟩ : Line) ∈ keptLines cs) := by
  refine ⟨?_, ?_, ?_, ?_⟩
  · show linesFromPathGo ε 0 (cs.map Except.ok) = _
    rw [linesFromPathGo_ok ε cs 0]
    rfl
  · have h0 := pairwise_fst_enumFrom cs 0
    have h1 : ((cs.enum).filter (fun p => decide (p.2 ≠ []))).Pairwise
        (fun a b => a.1 < b.1) := List.Pairwise.filter _ h0
    exact List.pairwise_map.2 h1
  · intro l hl
    obtain ⟨p, hp, hpl⟩ := List.mem_map.1 hl
    obtain ⟨hpe, hpf⟩ := List.mem_filter.1 hp
    have hne : p.2 ≠ [] := of_decide_eq_true hpf
    have hget : cs.get? p.1 = some p.2 := by
      have := List.mk_mem_enum_iff_getElem?.1 (show (p.1, p.2) ∈ cs.enum from hpe)
      rw [List.get?_eq_getElem?]
      exact this
    subst hpl
    exact ⟨hne, hget⟩
  · intro i c hget hne
    apply List.mem_map.2
    refine ⟨(i, c), ?_, rfl⟩
    apply List.mem_filter.2
    refine ⟨?_, decide_eq_true hne⟩
    apply List.mk_mem_enum_iff_getElem?.2
    rw [← List.get?_eq_getElem?]
    exact hget

/-- C6: repeated `next_token` calls reach `Eof` within a number of calls
bounded by the input length (`tailLen`: every stored character plus one
synthesized newline per line), and every single call either consumes at
least one character of the stream or immediately returns `Eof` leaving the
state untouched. -/
theorem claim6_termination_progress :
    (∀ (lines : List Line) (k : Nat), tailLen lines ≤ k + 1 →
      (tokAt (initL lines) k).kind = TokenKind.Eof) ∧
    (∀ s : LSt, nuL (nextToken s).2 < nuL s ∨
      ((nextToken s).1.kind = TokenKind.Eof ∧ (nextToken s).2 = s)) := by
  constructor
  · intro lines k h
    apply tokAt_eof_bound (nuL (initL lines)) (initL lines) k (Nat.le_refl _)
    rw [nuL_initL]
    exact h
  · intro s
    by_cases hp : peekL s = none
    · right
      rw [nextToken_of_none hp]
      exact ⟨rfl, rfl⟩
    · left
      exact (nextToken_nu (nuL s) s (Nat.le_refl _)).2.1 hp

/-- C6 witness: the two-character line `ab` has input length 3 and lexing
it returns `Eof` from the third call on. -/
theorem claim6_witness :
    tailLen [⟨0, ['a', 'b']⟩] ≤ 2 + 1 ∧
    (tokAt (initL [⟨0, ['a', 'b']⟩]) 2).kind = TokenKind.Eof :=
  ⟨by decide, claim6_termination_progress.1 [⟨0, ['a', 'b']⟩] 2 (by decide)⟩

/-- C7: once some call to `next_token` has returned `Eof`, every later call
returns `Eof` again, unconditionally. -/
theorem claim7_eof_terminal (s : LSt) (m n : Nat)
    (hm : (tokAt s m).kind = TokenKind.Eof) (hmn : m ≤ n) :
    (tokAt s n).kind = TokenKind.Eof := by
  have hnone : peekL (stAt s (m + 1)) = none := by
    rw [stAt_succ]
    exact (nextToken_nu (nuL (stAt s m)) (stAt s m) (Nat.le_refl _)).2.2 hm
  rcases Nat.lt_or_ge n (m + 1) with h | h
  · have : n = m := by omega
    rw [this]
    exact hm
  · obtain ⟨k, hk⟩ : ∃ k, n = (m + 1) + k := ⟨n - (m + 1), by omega⟩
    subst hk
    rw [tokAt_add]
    exact tokAt_of_none hnone k

/-- C7 witness: on the empty collection the first call is already `Eof`,
and so is the fourth. -/
theorem claim7_witness :
    (tokAt (initL []) 0).kind = TokenKind.Eof ∧
    (tokAt (initL []) 3).kind = TokenKind.Eof :=
  ⟨by decide, claim7_eof_terminal (initL []) 0 3 (by decide) (by decide)⟩

/-- C8: when the next character opens a string literal, a single
`next_token` call returns exactly one unterminated-string error token — and
never a string token — if no closing quote remains in the input; with a
closing quote it returns a string token holding the uninterpreted
intervening characters, and the closing quote is consumed and discarded. -/
theorem claim8_string_scan {s : LSt} (h : peekL s = some '"') :
    ((¬ '"' ∈ streamL (advL s).2) →
      (nextToken s).1.kind = TokenKind.Error "Unterminated string" ∧
      ∀ v, (nextToken s).1.kind ≠ TokenKind.String v) ∧
    ('"' ∈ streamL (advL s).2 →
      (nextToken s).1.kind =
        TokenKind.String
          (((streamL (advL s).2).takeWhile (fun c => c != '"')).asString) ∧
      streamL (nextToken s).2 =
        ((streamL (advL s).2).dropWhile (fun c => c != '"')).drop 1) := by
  rw [nextToken_quote h]
  obtain ⟨h1, h2⟩ := scanString_spec (spanAt s) h
  refine ⟨fun hn => ⟨h1 hn, ?_⟩, h2⟩
  intro v hv
  rw [h1 hn] at hv
  exact TokenKind.noConfusion hv

/-- C8 witness: lexing the line `"abc` produces exactly one
unterminated-string error token followed by `Eof`. -/
theorem claim8_witness :
    peekL (initL [⟨0, ['"', 'a', 'b', 'c']⟩]) = some '"' ∧
    (¬ '"' ∈ streamL (advL (initL [⟨0, ['"', 'a', 'b', 'c']⟩])).2) ∧
    (nextToken (initL [⟨0, ['"', 'a', 'b', 'c']⟩])).1.kind =
      TokenKind.Error "Unterminated string" ∧
    (tokAt (initL [⟨0, ['"', 'a', 'b', 'c']⟩]) 1).kind = TokenKind.Eof :=
  ⟨by decide, by decide,
   ((claim8_string_scan (by decide)).1 (by decide)).1, by decide⟩

/-- C9 counterexample: on the collection `["é"]` the two cursors diverge:
both return `'é'` on the first `advance`, but on the second the index-based
cursor (which compares the column with the byte length 2) returns `none`
while the iterator-based cursor returns the synthesized newline; the
two-advance traces differ. -/
theorem claim9_counterexample :
    (advL (initL [⟨0, ['é']⟩])).1 = some 'é' ∧
    (advC (initC [⟨0, ['é']⟩])).1 = some 'é' ∧
    (advL (advL (initL [⟨0, ['é']⟩])).2).1 = none ∧
    (advC (advC (initC [⟨0, ['é']⟩])).2).1 = some '\n' ∧
    runL [COp.advance, COp.advance] (initL [⟨0, ['é']⟩]) ≠
      runC [COp.advance, COp.advance] (initC [⟨0, ['é']⟩]) := by
  decide

/-- C9 (amended): on line collections whose contents are ASCII-only (one
UTF-8 byte per character) and free of line feeds, the two cursor
implementations are observationally equivalent: any identical sequence of
`peek`/`advance`/`eat_while`/`loc` calls from fresh cursors returns
identical characters, texts and locations. -/
theorem claim9_cursors_equiv (lines : List Line) (hgood : goodLines lines)
    (ops : List COp) :
    runL ops (initL lines) = runC ops (initC lines) :=
  rel_run ops (initL lines) (initC lines) (rel_init hgood)

/-- C9 witness: a concrete ASCII collection and call sequence on which the
two implementations agree. -/
theorem claim9_witness :
    runL [COp.peek, COp.advance, COp.advance, COp.loc, COp.advance, COp.peek]
      (initL [⟨0, ['a']⟩, ⟨2, ['b']⟩]) =
    runC [COp.peek, COp.advance, COp.advance, COp.loc, COp.advance, COp.peek]
      (initC [⟨0, ['a']⟩, ⟨2, ['b']⟩]) :=
  claim9_cursors_equiv [⟨0, ['a']⟩, ⟨2, ['b']⟩]
    (by
      intro l hl
      rcases List.mem_cons.1 hl with h | h
      · subst h
        exact ⟨by decide, by decide⟩
      · rw [List.mem_singleton] at h
        subst h
        exact ⟨by decide, by decide⟩)
    [COp.peek, COp.advance, COp.advance, COp.loc, COp.advance, COp.peek]

/-- C10: `loc` of the index-based cursor is total on every reachable state:
it never hits the unguarded `lines[lines.len() - 1]` fallback on an empty
collection, because the line index only becomes positive by advancing over
a line that exists; on the empty collection the fresh cursor reports
`{line := 0, col := 0}`. -/
theorem claim10_loc_total :
    (∀ s : LSt, ReachL s → (locL s).isSome = true) ∧
    locL (initL []) = some ⟨0, 0⟩ ∧
    (∀ s : LSt, ReachL s → 0 < s.li → s.lines ≠ []) := by
  have key : ∀ s : LSt, ReachL s → 0 < s.li → s.lines ≠ [] :=
    fun s h => reachL_pos_nonempty h
  refine ⟨?_, rfl, key⟩
  intro s hs
  unfold locL
  cases hg : s.lines.get? s.li with
  | some l => rfl
  | none =>
    by_cases h0 : 0 < s.li
    · rw [if_pos h0]
      have hne := key s hs h0
      have hlen : 0 < s.lines.length := List.length_pos.2 hne
      obtain ⟨last, hlast⟩ : ∃ last, s.lines.get? (s.lines.length - 1) = some last := by
        rcases ho : s.lines.get? (s.lines.length - 1) with _ | last
        · rw [List.get?_eq_none] at ho
          omega
        · exact ⟨last, rfl⟩
      rw [hlast]
      rfl
    · rw [if_neg h0]
      rfl

/-- C10 witness: the fresh cursor on the empty collection is reachable and
its location is defined (and equals the origin). -/
theorem claim10_witness :
    (locL (initL ([] : List Line))).isSome = true ∧
    locL (initL ([] : List Line)) = some ⟨0, 0⟩ :=
  ⟨claim10_loc_total.1 (initL []) (ReachL.init []), claim10_loc_total.2.1⟩

end ShallowsVM
